import Mathlib

/-!
Formal model of the path-finding core of `app.py` (Graph Path Finder).

The graph is a mapping from node label to an adjacency mapping of
neighbour label to edge weight, modelled as an association list
(Python dicts have unique keys; the well-formedness predicate
`WFGraph` records that).  Weights live in an arbitrary linearly
ordered additive commutative monoid `W`, covering the "non-negative
real" weights of the specification; the module-level sample graph of
app.py has integer weights and is instantiated at `W := ℤ`.

The priority queue of `heapq` is modelled as a multiset of entries
from which `selectMin` extracts the least entry under the
lexicographic order on (cost, node, path) that Python uses to compare
the tuples pushed on the heap.  Two heap entries that agree on cost,
node and path are identical, so extracting any least element is
deterministic and faithful to `heapq.heappop`.  String comparison
`charsLt` is Python's code-point lexicographic order.
-/

namespace GPF

abbrev Node := String

abbrev Adj (W : Type) := List (Node × W)

abbrev Graph (W : Type) := List (Node × Adj W)

variable {W : Type} [LinearOrderedAddCommMonoid W]

/-- Dict lookup `graph[node]` / membership `node in graph`. -/
def lookupNode (g : Graph W) (n : Node) : Option (Adj W) :=
  (g.find? (fun p => p.1 == n)).map (fun p => p.2)

/-- Weight of the edge from `u` to `v`, when present (`graph[u][v]`). -/
def edgeWeight (g : Graph W) (u v : Node) : Option W :=
  (lookupNode g u).bind (fun adj => (adj.find? (fun p => p.1 == v)).map (fun p => p.2))

/-- One `heapq` entry `(cost, node, path)`. -/
structure Entry (W : Type) where
  cost : W
  node : Node
  path : List Node
deriving DecidableEq

/-- Python's lexicographic (code-point) comparison of strings, as strict
comparison of their character lists. -/
def charsLt : List Char → List Char → Bool
  | [], [] => false
  | [], _ :: _ => true
  | _ :: _, [] => false
  | a :: as, b :: bs => if a < b then true else if b < a then false else charsLt as bs

/-- Python's lexicographic comparison of lists of strings (non-strict). -/
def pathsLe : List Node → List Node → Bool
  | [], _ => true
  | _ :: _, [] => false
  | a :: as, b :: bs =>
    if charsLt a.data b.data then true
    else if charsLt b.data a.data then false
    else pathsLe as bs

/-- Python's lexicographic comparison of `(cost, node, path)` heap tuples. -/
def entryLe (a b : Entry W) : Bool :=
  if a.cost < b.cost then true
  else if b.cost < a.cost then false
  else if charsLt a.node.data b.node.data then true
  else if charsLt b.node.data a.node.data then false
  else pathsLe a.path b.path

/-- Select the least entry (under `entryLe`) out of `e :: l`, returning it
together with the remaining entries.  This models `heapq.heappop`. -/
def selectMin (e : Entry W) (l : List (Entry W)) : Entry W × List (Entry W) :=
  match l with
  | [] => (e, [])
  | f :: t =>
    if entryLe e f then
      let r := selectMin e t
      (r.1, f :: r.2)
    else
      let r := selectMin f t
      (r.1, e :: r.2)

/-- The entries pushed while expanding node `n`, reached at cost `c` along
`p`: one entry per not-yet-visited neighbour (lines 72-77 of app.py; the
caller passes the visited set to which `n` was just added, matching the
`visited.add(node)` on line 69 happening before the neighbour loop). -/
def pushesFor (g : Graph W) (visited : List Node) (c : W) (n : Node) (p : List Node) :
    List (Entry W) :=
  match lookupNode g n with
  | none => []
  | some adj =>
    (adj.filter (fun q => !decide (q.1 ∈ visited))).map
      (fun q => ⟨c + q.2, q.1, p ++ [q.1]⟩)

/-- The `while heap:` loop of `dijkstra`, with an explicit fuel bound on the
number of iterations; `none` means the fuel ran out (we prove it never does
for `fuelFor`). -/
def dijkstraAux (g : Graph W) (e : Node) :
    Nat → List (Entry W) → List Node → Option (WithTop W × List Node)
  | _, [], _ => some (⊤, [])
  | 0, _ :: _, _ => none
  | fuel + 1, h :: t, visited =>
    let s := selectMin h t
    if s.1.node = e then some ((s.1.cost : WithTop W), s.1.path)
    else if s.1.node ∈ visited then dijkstraAux g e fuel s.2 visited
    else dijkstraAux g e fuel
      (pushesFor g (s.1.node :: visited) s.1.cost s.1.node s.1.path ++ s.2)
      (s.1.node :: visited)

/-- Size of the not-yet-visited part of the graph: one unit per unvisited
node entry plus one per adjacency entry of such a node.  Together with the
heap length this is a strictly decreasing measure of the loop. -/
def graphSize (g : Graph W) (visited : List Node) : Nat :=
  ((g.filter (fun p => !decide (p.1 ∈ visited))).map (fun p => p.2.length + 1)).sum

/-- Enough fuel for the whole search. -/
def fuelFor (g : Graph W) : Nat := graphSize g [] + 1

/-- `dijkstra(graph, start, end)` of app.py: cost is `⊤` exactly when the
Python code returns `float('inf')`. -/
def dijkstra (g : Graph W) (s e : Node) : WithTop W × List Node :=
  (dijkstraAux g e (fuelFor g) [⟨0, s, [s]⟩] []).getD (⊤, [])

/-- The module-level sample graph of app.py (lines 22-33). -/
def sampleGraph : Graph ℤ :=
  [ ("A", [("B", 1), ("C", 4), ("E", 2)]),
    ("B", [("A", 1), ("C", 2), ("D", 5)]),
    ("C", [("A", 4), ("B", 2), ("D", 1), ("F", 3)]),
    ("D", [("B", 5), ("C", 1), ("F", 2), ("G", 1)]),
    ("E", [("A", 2), ("F", 2), ("H", 4)]),
    ("F", [("C", 3), ("D", 2), ("E", 2), ("I", 3)]),
    ("G", [("D", 1), ("J", 5)]),
    ("H", [("E", 4), ("I", 1)]),
    ("I", [("F", 3), ("H", 1), ("J", 2)]),
    ("J", [("G", 5), ("I", 2)]) ]

/-- Removal of the directed edge `u → v` when present
(`if u in graph_copy and v in graph_copy[u]: del graph_copy[u][v]`). -/
def removeEdge (g : Graph W) (u v : Node) : Graph W :=
  g.map (fun p => if p.1 = u then (p.1, p.2.filter (fun q => !decide (q.1 = v))) else p)

/-- Symmetric removal of the edge between `u` and `v` (lines 103-106). -/
def removeBoth (g : Graph W) (u v : Node) : Graph W :=
  removeEdge (removeEdge g u v) v u

/-- One iteration of the edge-removal loop of `find_second_shortest_path`
(lines 96-115): run `dijkstra` on the graph with the edge `uv` removed in
both directions and keep the candidate when it is strictly cheaper than the
best so far and differs from the primary shortest path. -/
def secondStep (g : Graph W) (s e : Node) (sp : List Node)
    (best : WithTop W × List Node) (uv : Node × Node) : WithTop W × List Node :=
  let r := dijkstra (removeBoth g uv.1 uv.2) s e
  if r.1 < best.1 ∧ r.2 ≠ sp then r else best

/-- `find_second_shortest_path`, generalised over the graph it consults
(app.py reads the module-level `graph`). -/
def findSecondIn (g : Graph W) (s e : Node) : WithTop W × List Node :=
  if (dijkstra g s e).2 = [] then (⊤, [])
  else ((dijkstra g s e).2.zip (dijkstra g s e).2.tail).foldl
    (secondStep g s e (dijkstra g s e).2) (⊤, [])

/-- `find_second_shortest_path(start, end)` of app.py, which consults the
module-level sample graph. -/
def find_second_shortest_path (s e : Node) : WithTop ℤ × List Node :=
  findSecondIn sampleGraph s e

/-- Cost of a node sequence: sum of the weights of its consecutive edges,
`none` when some consecutive pair is not an edge (or the sequence is empty). -/
def pathCost (g : Graph W) : List Node → Option W
  | [] => none
  | [_] => some 0
  | u :: v :: rest =>
    match edgeWeight g u v, pathCost g (v :: rest) with
    | some w, some c => some (w + c)
    | _, _ => none

/-- `p` is a path from `s` to `e` in `g`: nonempty, starts at `s`, ends at
`e`, and every consecutive pair is an edge of `g`. -/
def IsPathFrom (g : Graph W) (s e : Node) (p : List Node) : Prop :=
  p.head? = some s ∧ p.getLast? = some e ∧ (pathCost g p).isSome

/-- All edge weights of `g` are non-negative. -/
def NonnegG (g : Graph W) : Prop :=
  ∀ p ∈ g, ∀ q ∈ p.2, (0 : W) ≤ q.2

/-- Well-formedness inherited from Python dicts: node keys are distinct and
each adjacency's neighbour keys are distinct. -/
def WFGraph (g : Graph W) : Prop :=
  (g.map (fun p => p.1)).Nodup ∧ ∀ p ∈ g, (p.2.map (fun q => q.1)).Nodup

instance (g : Graph W) [DecidableEq W] : Decidable (NonnegG g) := by
  unfold NonnegG; infer_instance

instance (g : Graph W) : Decidable (WFGraph g) := by
  unfold WFGraph; infer_instance

instance (g : Graph W) (s e : Node) (p : List Node) : Decidable (IsPathFrom g s e p) := by
  unfold IsPathFrom; infer_instance

/-! ### Heap extraction lemmas -/

theorem entryLe_cost_le {a b : Entry W} (h : entryLe a b = true) : a.cost ≤ b.cost := by
  by_cases h1 : a.cost < b.cost
  · exact le_of_lt h1
  · by_cases h2 : b.cost < a.cost
    · simp [entryLe, h1, h2] at h
    · exact le_of_not_lt h2

theorem entryLe_false_cost_le {a b : Entry W} (h : entryLe a b = false) :
    b.cost ≤ a.cost := by
  by_cases h1 : a.cost < b.cost
  · simp [entryLe, h1] at h
  · exact le_of_not_lt h1

theorem selectMin_perm (e : Entry W) (l : List (Entry W)) :
    List.Perm ((selectMin e l).1 :: (selectMin e l).2) (e :: l) := by
  induction l generalizing e with
  | nil => simp [selectMin]
  | cons f t ih =>
    unfold selectMin
    by_cases hef : entryLe e f
    · simp only [hef, if_true]
      exact ((List.Perm.swap f _ _).trans ((ih e).cons f)).trans (List.Perm.swap e f t)
    · simp only [hef, if_false]
      exact (List.Perm.swap e _ _).trans ((ih f).cons e)

theorem selectMin_length (e : Entry W) (l : List (Entry W)) :
    (selectMin e l).2.length = l.length := by
  have h := (selectMin_perm e l).length_eq
  simpa using h

theorem selectMin_mem (e : Entry W) (l : List (Entry W)) :
    (selectMin e l).1 ∈ e :: l :=
  (selectMin_perm e l).mem_iff.mp (List.mem_cons_self _ _)

theorem selectMin_rest_mem {e x : Entry W} {l : List (Entry W)}
    (hx : x ∈ e :: l) (hne : x ≠ (selectMin e l).1) : x ∈ (selectMin e l).2 := by
  have hx2 : x ∈ (selectMin e l).1 :: (selectMin e l).2 :=
    (selectMin_perm e l).mem_iff.mpr hx
  cases hx2 with
  | head => exact absurd rfl hne
  | tail _ h => exact h

theorem selectMin_cost_le (e : Entry W) (l : List (Entry W)) :
    ∀ x ∈ e :: l, (selectMin e l).1.cost ≤ x.cost := by
  induction l generalizing e with
  | nil =>
    intro x hx
    rcases List.mem_cons.mp hx with hx | hx
    · rw [hx]; simp [selectMin]
    · simp at hx
  | cons f t ih =>
    intro x hx
    unfold selectMin
    by_cases hef : entryLe e f
    · simp only [hef, if_true]
      rcases List.mem_cons.mp hx with hx | hx
      · rw [hx]; exact ih e e (List.mem_cons_self _ _)
      rcases List.mem_cons.mp hx with hx | hx
      · rw [hx]
        calc (selectMin e t).1.cost ≤ e.cost := ih e e (List.mem_cons_self _ _)
          _ ≤ f.cost := entryLe_cost_le hef
      · exact ih e x (List.mem_cons.mpr (Or.inr hx))
    · simp only [hef, if_false]
      have hef2 : entryLe e f = false := by simpa using hef
      have hfe : f.cost ≤ e.cost := entryLe_false_cost_le hef2
      rcases List.mem_cons.mp hx with hx | hx
      · rw [hx]
        calc (selectMin f t).1.cost ≤ f.cost := ih f f (List.mem_cons_self _ _)
          _ ≤ e.cost := hfe
      · exact ih f x hx

/-! ### Termination: fuel sufficiency -/

theorem graphSize_cons (k : Node) (a : Adj W) (g : Graph W) (visited : List Node) :
    graphSize ((k, a) :: g) visited =
      (if k ∈ visited then 0 else a.length + 1) + graphSize g visited := by
  by_cases hk : k ∈ visited <;> simp [graphSize, hk]

theorem graphSize_mono (g : Graph W) (n : Node) (visited : List Node) :
    graphSize g (n :: visited) ≤ graphSize g visited := by
  induction g with
  | nil => simp [graphSize]
  | cons p g ih =>
    obtain ⟨k, a⟩ := p
    rw [graphSize_cons, graphSize_cons]
    by_cases hk : k ∈ visited
    · simp [hk, List.mem_cons.mpr (Or.inr hk)]
      exact ih
    · by_cases hkn : k ∈ n :: visited <;> simp [hk, hkn] <;> omega

theorem graphSize_drop {g : Graph W} {n : Node} {adj : Adj W} (visited : List Node)
    (hn : n ∉ visited) (hl : lookupNode g n = some adj) :
    graphSize g (n :: visited) + adj.length + 1 ≤ graphSize g visited := by
  induction g with
  | nil => simp [lookupNode] at hl
  | cons p g ih =>
    obtain ⟨k, a⟩ := p
    rw [graphSize_cons, graphSize_cons]
    by_cases hkn : k = n
    · subst hkn
      have ha : a = adj := by
        simp [lookupNode, List.find?] at hl
        exact hl
      subst ha
      have h1 : graphSize g (k :: visited) ≤ graphSize g visited := graphSize_mono g k visited
      simp [hn, List.mem_cons_self]
      omega
    · have hl2 : lookupNode g n = some adj := by
        simp only [lookupNode, List.find?] at hl ⊢
        have : (k == n) = false := by simp [hkn]
        rw [this] at hl
        exact hl
      have := ih hl2
      by_cases hk : k ∈ visited
      · simp only [hk, if_true, List.mem_cons.mpr (Or.inr hk), if_true]
        omega
      · have hk2 : k ∉ n :: visited := by
          simp [List.mem_cons, hkn, hk]
        simp only [hk, if_neg hk2, if_false]
        omega

theorem pushesFor_length_le {g : Graph W} {n : Node} {adj : Adj W}
    (visited : List Node) (c : W) (p : List Node)
    (hl : lookupNode g n = some adj) :
    (pushesFor g visited c n p).length ≤ adj.length := by
  simp only [pushesFor, hl, List.length_map]
  exact List.length_filter_le _ _

theorem dijkstraAux_isSome (g : Graph W) (e : Node) :
    ∀ fuel (heap : List (Entry W)) (visited : List Node),
      heap.length + graphSize g visited ≤ fuel →
      (dijkstraAux g e fuel heap visited).isSome := by
  intro fuel
  induction fuel with
  | zero =>
    intro heap visited h
    match heap with
    | [] => simp [dijkstraAux]
    | h' :: t => simp at h
  | succ fuel ih =>
    intro heap visited h
    match heap with
    | [] => simp [dijkstraAux]
    | hd :: t =>
      rw [dijkstraAux]
      set s := selectMin hd t with hs
      by_cases h1 : s.1.node = e
      · simp [h1]
      · simp only [h1, if_false]
        by_cases h2 : s.1.node ∈ visited
        · simp only [h2, if_true]
          apply ih
          have hlen : s.2.length = t.length := selectMin_length hd t
          simp only [List.length_cons] at h
          omega
        · simp only [h2, if_false]
          apply ih
          have hlen : s.2.length = t.length := selectMin_length hd t
          simp only [List.length_cons] at h
          rw [List.length_append]
          cases hl : lookupNode g s.1.node with
          | none =>
            have hp : pushesFor g (s.1.node :: visited) s.1.cost s.1.node s.1.path = [] := by
              simp [pushesFor, hl]
            rw [hp]
            have := graphSize_mono g s.1.node visited
            simp only [List.length_nil]
            omega
          | some adj =>
            have hp := pushesFor_length_le (s.1.node :: visited) s.1.cost s.1.path hl
            have hd2 := graphSize_drop visited h2 hl
            omega

theorem dijkstra_runs (g : Graph W) (s e : Node) :
    dijkstraAux g e (fuelFor g) [⟨0, s, [s]⟩] [] = some (dijkstra g s e) := by
  have h : (dijkstraAux g e (fuelFor g) [(⟨0, s, [s]⟩ : Entry W)] []).isSome := by
    apply dijkstraAux_isSome
    unfold fuelFor
    simp
    omega
  obtain ⟨r, hr⟩ := Option.isSome_iff_exists.mp h
  rw [hr]
  simp [dijkstra, hr]

/-! ### Lookup and path-cost lemmas -/

theorem lookupNode_mem {g : Graph W} {u : Node} {adj : Adj W}
    (h : lookupNode g u = some adj) : (u, adj) ∈ g := by
  unfold lookupNode at h
  cases hf : g.find? (fun p => p.1 == u) with
  | none => rw [hf] at h; cases h
  | some p =>
    rw [hf] at h
    simp at h
    have hm := List.mem_of_find?_eq_some hf
    have hp := List.find?_some hf
    simp only [beq_iff_eq] at hp
    have : p = (u, adj) := by
      obtain ⟨p1, p2⟩ := p
      simp only at hp h
      rw [hp, h]
    rwa [this] at hm

theorem edgeWeight_mem {g : Graph W} {u v : Node} {w : W}
    (h : edgeWeight g u v = some w) :
    ∃ adj, lookupNode g u = some adj ∧ (v, w) ∈ adj := by
  unfold edgeWeight at h
  cases hl : lookupNode g u with
  | none => rw [hl] at h; cases h
  | some adj =>
    rw [hl] at h
    simp only [Option.some_bind] at h
    refine ⟨adj, rfl, ?_⟩
    cases hf : adj.find? (fun p => p.1 == v) with
    | none => rw [hf] at h; cases h
    | some q =>
      rw [hf] at h
      simp at h
      have hm := List.mem_of_find?_eq_some hf
      have hq := List.find?_some hf
      simp only [beq_iff_eq] at hq
      have : q = (v, w) := by
        obtain ⟨q1, q2⟩ := q
        simp only at hq h
        rw [hq, h]
      rwa [this] at hm

theorem find?_key_eq_of_mem {α : Type} {l : List (Node × α)} {v : Node} {w : α}
    (hnd : (l.map (fun q => q.1)).Nodup) (hm : (v, w) ∈ l) :
    l.find? (fun q => q.1 == v) = some (v, w) := by
  induction l with
  | nil => cases hm
  | cons q t ih =>
    rcases List.mem_cons.mp hm with hq | ht
    · rw [← hq]
      simp [List.find?]
    · have hqv : q.1 ≠ v := by
        intro he
        have : v ∈ t.map (fun q => q.1) := by
          exact List.mem_map.mpr ⟨(v, w), ht, rfl⟩
        rw [List.map_cons, List.nodup_cons] at hnd
        exact hnd.1 (he ▸ this)
      have hnd2 : (t.map (fun q => q.1)).Nodup := by
        rw [List.map_cons, List.nodup_cons] at hnd
        exact hnd.2
      simp only [List.find?]
      have : (q.1 == v) = false := by simp [hqv]
      rw [this]
      exact ih hnd2 ht

/-- In a well-formed graph, membership of an edge pair determines the
looked-up weight. -/
theorem edgeWeight_eq_of_mem {g : Graph W} {u v : Node} {adj : Adj W} {w : W}
    (hwf : WFGraph g) (hl : lookupNode g u = some adj) (hm : (v, w) ∈ adj) :
    edgeWeight g u v = some w := by
  have hnd : (adj.map (fun q => q.1)).Nodup := hwf.2 (u, adj) (lookupNode_mem hl)
  unfold edgeWeight
  rw [hl]
  simp only [Option.some_bind]
  rw [find?_key_eq_of_mem hnd hm]
  rfl

theorem pathCost_single (g : Graph W) (x : Node) : pathCost g [x] = some 0 := rfl

theorem pathCost_cons_cons {g : Graph W} {u v : Node} {rest : List Node} {c : W}
    (h : pathCost g (u :: v :: rest) = some c) :
    ∃ w c2, edgeWeight g u v = some w ∧ pathCost g (v :: rest) = some c2 ∧ c = w + c2 := by
  rw [pathCost] at h
  cases hew : edgeWeight g u v with
  | none => rw [hew] at h; cases h
  | some w =>
    cases hpc : pathCost g (v :: rest) with
    | none => rw [hew, hpc] at h; cases h
    | some c2 =>
      rw [hew, hpc] at h
      simp only [Option.some.injEq] at h
      exact ⟨w, c2, rfl, rfl, h.symm⟩

theorem pathCost_cons_cons_eq {g : Graph W} {u v : Node} {rest : List Node} {w c2 : W}
    (hew : edgeWeight g u v = some w) (hpc : pathCost g (v :: rest) = some c2) :
    pathCost g (u :: v :: rest) = some (w + c2) := by
  rw [pathCost, hew, hpc]

theorem pathCost_snoc {g : Graph W} :
    ∀ {p : List Node} {c w : W} {n m : Node},
      pathCost g p = some c → p.getLast? = some n → edgeWeight g n m = some w →
      pathCost g (p ++ [m]) = some (c + w) := by
  intro p
  induction p with
  | nil => intro c w n m hp; cases hp
  | cons x t ih =>
    intro c w n m hp hl he
    cases t with
    | nil =>
      simp only [List.getLast?_singleton, Option.some.injEq] at hl
      subst hl
      rw [pathCost_single] at hp
      simp only [Option.some.injEq] at hp
      subst hp
      simp only [List.singleton_append]
      rw [pathCost, he, pathCost_single]
      simp
    | cons y t2 =>
      obtain ⟨w1, c1, hew1, hpc1, hc⟩ := pathCost_cons_cons hp
      have hl2 : (y :: t2).getLast? = some n := by
        rw [List.getLast?_cons_cons] at hl
        exact hl
      have := ih hpc1 hl2 he
      have hres : pathCost g (x :: (y :: t2 ++ [m])) = some (w1 + (c1 + w)) :=
        pathCost_cons_cons_eq hew1 this
      rw [List.cons_append]
      rw [hres, hc]
      congr 1
      rw [add_assoc]

theorem pathCost_snoc_isSome {g : Graph W} {p : List Node} {n m : Node}
    (hp : (pathCost g p).isSome) (hl : p.getLast? = some n)
    (he : (edgeWeight g n m).isSome) : (pathCost g (p ++ [m])).isSome := by
  obtain ⟨c, hc⟩ := Option.isSome_iff_exists.mp hp
  obtain ⟨w, hw⟩ := Option.isSome_iff_exists.mp he
  rw [pathCost_snoc hc hl hw]
  rfl

/-- Every weight occurring in a valid path is a graph weight, so path costs
are non-negative in a non-negatively weighted graph. -/
theorem edgeWeight_nonneg {g : Graph W} {u v : Node} {w : W}
    (hw : NonnegG g) (h : edgeWeight g u v = some w) : 0 ≤ w := by
  obtain ⟨adj, hl, hm⟩ := edgeWeight_mem h
  exact hw (u, adj) (lookupNode_mem hl) (v, w) hm

theorem pathCost_nonneg {g : Graph W} (hw : NonnegG g) :
    ∀ {p : List Node} {c : W}, pathCost g p = some c → 0 ≤ c := by
  intro p
  induction p with
  | nil => intro c h; cases h
  | cons x t ih =>
    intro c h
    cases t with
    | nil =>
      rw [pathCost_single] at h
      simp only [Option.some.injEq] at h
      rw [← h]
    | cons y t2 =>
      obtain ⟨w, c2, hew, hpc, hc⟩ := pathCost_cons_cons h
      rw [hc]
      exact add_nonneg (edgeWeight_nonneg hw hew) (ih hpc)

/-! ### Entry validity: every finite result of the search is a path -/

/-- Invariant of a heap entry: its path runs from the start node to the
entry's node and is a chain of edges of `g`. -/
def EntryPath (g : Graph W) (s : Node) (x : Entry W) : Prop :=
  x.path.head? = some s ∧ x.path.getLast? = some x.node ∧ (pathCost g x.path).isSome

theorem pushesFor_entryPath {g : Graph W} {s : Node} {visited : List Node}
    {c : W} {n : Node} {p : List Node} (hep : EntryPath g s ⟨c, n, p⟩) :
    ∀ x ∈ pushesFor g visited c n p, EntryPath g s x := by
  intro x hx
  unfold pushesFor at hx
  cases hl : lookupNode g n with
  | none => rw [hl] at hx; cases hx
  | some adj =>
    rw [hl] at hx
    obtain ⟨q, hq, hqx⟩ := List.mem_map.mp hx
    have hq2 : q ∈ adj := List.mem_of_mem_filter hq
    obtain ⟨hhead, hlast, hcost⟩ := hep
    have hew : (edgeWeight g n q.1).isSome := by
      unfold edgeWeight
      rw [hl]
      simp only [Option.some_bind]
      have hfs : (adj.find? (fun p => p.1 == q.1)).isSome := by
        rw [List.find?_isSome]
        exact ⟨q, hq2, by simp⟩
      obtain ⟨q0, hq0⟩ := Option.isSome_iff_exists.mp hfs
      rw [hq0]
      rfl
    refine ⟨?_, ?_, ?_⟩ <;> rw [← hqx]
    · simp only
      cases p with
      | nil => cases hhead
      | cons a t => simpa using hhead
    · simp only
      simp [List.getLast?_concat]
    · exact pathCost_snoc_isSome hcost hlast hew

theorem dijkstraAux_valid (g : Graph W) (s e : Node) :
    ∀ (fuel : Nat) (heap : List (Entry W)) (visited : List Node)
      (r : WithTop W × List Node),
      (∀ x ∈ heap, EntryPath g s x) →
      dijkstraAux g e fuel heap visited = some r →
      (r.1 = ⊤ → r.2 = []) ∧ (∀ c : W, r.1 = (c : WithTop W) → IsPathFrom g s e r.2) := by
  intro fuel
  induction fuel with
  | zero =>
    intro heap visited r hinv hr
    match heap with
    | [] =>
      rw [dijkstraAux] at hr
      simp only [Option.some.injEq] at hr
      constructor
      · intro _; rw [← hr]
      · intro c hc; rw [← hr] at hc; exact absurd hc (by simp)
    | h' :: t => cases hr
  | succ fuel ih =>
    intro heap visited r hinv hr
    match heap with
    | [] =>
      rw [dijkstraAux] at hr
      simp only [Option.some.injEq] at hr
      constructor
      · intro _; rw [← hr]
      · intro c hc; rw [← hr] at hc; exact absurd hc (by simp)
    | hd :: t =>
      rw [dijkstraAux] at hr
      have hmin : EntryPath g s (selectMin hd t).1 := hinv _ (selectMin_mem hd t)
      have hrest : ∀ x ∈ (selectMin hd t).2, EntryPath g s x := by
        intro x hx
        apply hinv
        exact (selectMin_perm hd t).mem_iff.mp (List.mem_cons.mpr (Or.inr hx))
      by_cases h1 : (selectMin hd t).1.node = e
      · simp only [h1, if_true] at hr
        simp only [Option.some.injEq] at hr
        constructor
        · intro htop
          rw [← hr] at htop
          exact absurd htop (WithTop.coe_ne_top)
        · intro c hc
          obtain ⟨hhead, hlast, hcost⟩ := hmin
          rw [← hr]
          exact ⟨hhead, h1 ▸ hlast, hcost⟩
      · simp only [h1, if_false] at hr
        by_cases h2 : (selectMin hd t).1.node ∈ visited
        · simp only [h2, if_true] at hr
          exact ih _ _ _ hrest hr
        · simp only [h2, if_false] at hr
          refine ih _ _ _ ?_ hr
          intro x hx
          rcases List.mem_append.mp hx with hx | hx
          · have : EntryPath g s
                ⟨(selectMin hd t).1.cost, (selectMin hd t).1.node, (selectMin hd t).1.path⟩ := hmin
            exact pushesFor_entryPath this x hx
          · exact hrest x hx

/-- The two possible shapes of a `dijkstra` result: the unreachable result,
or a finite cost together with a path from `s` to `e`. -/
theorem dijkstra_shape (g : Graph W) (s e : Node) :
    dijkstra g s e = (⊤, []) ∨
      ∃ c : W, (dijkstra g s e).1 = (c : WithTop W) ∧ IsPathFrom g s e (dijkstra g s e).2 := by
  have hrun := dijkstra_runs g s e
  have hseed : ∀ x ∈ [(⟨0, s, [s]⟩ : Entry W)], EntryPath g s x := by
    intro x hx
    simp only [List.mem_singleton] at hx
    subst hx
    exact ⟨rfl, rfl, by rw [pathCost_single]; rfl⟩
  have hv := dijkstraAux_valid g s e (fuelFor g) _ _ _ hseed hrun
  cases hc : (dijkstra g s e).1 with
  | top =>
    left
    have h2 := hv.1 hc
    have : dijkstra g s e = ((dijkstra g s e).1, (dijkstra g s e).2) := rfl
    rw [this, hc, h2]
  | coe c =>
    right
    exact ⟨c, rfl, hv.2 c hc⟩

/-- When no path exists the search returns the unreachable result. -/
theorem dijkstra_no_path {g : Graph W} {s e : Node}
    (h : ∀ p, ¬ IsPathFrom g s e p) : dijkstra g s e = (⊤, []) := by
  rcases dijkstra_shape g s e with hs | ⟨c, _, hp⟩
  · exact hs
  · exact absurd hp (h _)

/-- A start node without a graph entry reaches nothing else. -/
theorem no_path_start_absent {g : Graph W} {s e : Node}
    (hl : lookupNode g s = none) (hne : s ≠ e) : ∀ p, ¬ IsPathFrom g s e p := by
  rintro p ⟨hhead, hlast, hcost⟩
  match p with
  | [] => cases hhead
  | [x] =>
    simp only [List.head?_cons, Option.some.injEq] at hhead
    simp only [List.getLast?_singleton, Option.some.injEq] at hlast
    exact hne (by rw [← hhead, ← hlast])
  | x :: y :: rest =>
    simp only [List.head?_cons, Option.some.injEq] at hhead
    subst hhead
    obtain ⟨c, hc⟩ := Option.isSome_iff_exists.mp hcost
    obtain ⟨w, c2, hew, _, _⟩ := pathCost_cons_cons hc
    unfold edgeWeight at hew
    rw [hl] at hew
    cases hew

/-- Any path of length at least two ends with an edge into its last node. -/
theorem last_edge_exists {g : Graph W} :
    ∀ {p : List Node} {z : Node}, 2 ≤ p.length → (pathCost g p).isSome →
      p.getLast? = some z → ∃ u, (edgeWeight g u z).isSome := by
  intro p
  induction p with
  | nil => intro z h; simp at h
  | cons x t ih =>
    intro z hlen hcost hlast
    match t with
    | [] => simp at hlen
    | [y] =>
      obtain ⟨c, hc⟩ := Option.isSome_iff_exists.mp hcost
      obtain ⟨w, c2, hew, _, _⟩ := pathCost_cons_cons hc
      simp only [List.getLast?_cons_cons, List.getLast?_singleton,
        Option.some.injEq] at hlast
      exact ⟨x, hlast ▸ (by rw [hew]; rfl)⟩
    | y :: y2 :: t2 =>
      obtain ⟨c, hc⟩ := Option.isSome_iff_exists.mp hcost
      obtain ⟨w, c2, hew, hpc, _⟩ := pathCost_cons_cons hc
      refine ih (by simp) (by rw [hpc]; rfl) ?_
      rw [List.getLast?_cons_cons] at hlast
      exact hlast

/-- An end node occurring neither as a key nor as a neighbour is
unreachable from any other node. -/
theorem no_path_end_absent {g : Graph W} {s e : Node}
    (habs : ∀ pr ∈ g, ∀ q ∈ pr.2, q.1 ≠ e) (hne : s ≠ e) :
    ∀ p, ¬ IsPathFrom g s e p := by
  rintro p ⟨hhead, hlast, hcost⟩
  match p with
  | [] => cases hhead
  | [x] =>
    simp only [List.head?_cons, Option.some.injEq] at hhead
    simp only [List.getLast?_singleton, Option.some.injEq] at hlast
    exact hne (by rw [← hhead, ← hlast])
  | x :: y :: rest =>
    obtain ⟨u, hu⟩ := last_edge_exists (by simp) hcost hlast
    obtain ⟨w, hw⟩ := Option.isSome_iff_exists.mp hu
    obtain ⟨adj, hladj, hmem⟩ := edgeWeight_mem hw
    exact habs (u, adj) (lookupNode_mem hladj) (e, w) hmem rfl

/-- `dijkstra(g, s, s)` pops the seed entry first and returns immediately. -/
theorem dijkstra_self_eval (g : Graph W) (s : Node) :
    dijkstra g s s = (((0 : W) : WithTop W), [s]) := by
  unfold dijkstra
  have hf : fuelFor g = graphSize g ([] : List Node) + 1 := rfl
  rw [hf, dijkstraAux]
  simp [selectMin]

/-! ### Splitting paths and removing repeated nodes -/

theorem head?_append_cons (A : List Node) (x : Node) (B B2 : List Node) :
    (A ++ x :: B).head? = (A ++ x :: B2).head? := by
  cases A <;> simp

theorem getLast?_append_cons (A : List Node) (x : Node) (B : List Node) :
    (A ++ x :: B).getLast? = (x :: B).getLast? := by
  induction A with
  | nil => rfl
  | cons a A ih =>
    cases hA : A ++ x :: B with
    | nil => exact absurd hA (by simp)
    | cons h2 t2 =>
      rw [List.cons_append, hA, List.getLast?_cons_cons, ← hA, ih]

theorem pathCost_append_join {g : Graph W} :
    ∀ (A : List Node) (x : Node) (B : List Node) (c1 c2 : W),
      pathCost g (A ++ [x]) = some c1 → pathCost g (x :: B) = some c2 →
      pathCost g (A ++ x :: B) = some (c1 + c2) := by
  intro A
  induction A with
  | nil =>
    intro x B c1 c2 h1 h2
    rw [List.nil_append] at h1
    rw [pathCost_single] at h1
    simp only [Option.some.injEq] at h1
    rw [List.nil_append, h2, ← h1, zero_add]
  | cons a A ih =>
    intro x B c1 c2 h1 h2
    cases A with
    | nil =>
      simp only [List.nil_append, List.cons_append] at h1 ⊢
      obtain ⟨w, c0, hew, hpc, hc⟩ := pathCost_cons_cons h1
      rw [pathCost_single] at hpc
      simp only [Option.some.injEq] at hpc
      rw [pathCost_cons_cons_eq hew h2, hc, ← hpc, add_zero]
    | cons a2 A2 =>
      obtain ⟨w, c0, hew, hpc, hc⟩ := pathCost_cons_cons h1
      have hrec := ih x B c0 c2 hpc h2
      rw [hc, add_assoc]
      exact pathCost_cons_cons_eq hew hrec

theorem pathCost_append_split {g : Graph W} :
    ∀ (A : List Node) (x : Node) (B : List Node) (c : W),
      pathCost g (A ++ x :: B) = some c →
      ∃ c1 c2, pathCost g (A ++ [x]) = some c1 ∧ pathCost g (x :: B) = some c2 ∧
        c = c1 + c2 := by
  intro A
  induction A with
  | nil =>
    intro x B c h
    rw [List.nil_append] at h
    exact ⟨0, c, by rw [List.nil_append, pathCost_single], h, (zero_add c).symm⟩
  | cons a A ih =>
    intro x B c h
    cases A with
    | nil =>
      simp only [List.nil_append, List.cons_append] at h ⊢
      obtain ⟨w, c2, hew, hpc, hc⟩ := pathCost_cons_cons h
      refine ⟨w + 0, c2, ?_, hpc, ?_⟩
      · rw [pathCost_cons_cons_eq hew (pathCost_single g x)]
      · rw [hc, add_zero]
    | cons a2 A2 =>
      obtain ⟨w, c0, hew, hpc, hc⟩ := pathCost_cons_cons h
      obtain ⟨c1, c2, hc1, hc2, hc0⟩ := ih x B c0 hpc
      refine ⟨w + c1, c2, ?_, hc2, ?_⟩
      · exact pathCost_cons_cons_eq hew hc1
      · rw [hc, hc0, add_assoc]

theorem not_nodup_split {p : List Node} (h : ¬ p.Nodup) :
    ∃ (x : Node) (l1 l2 l3 : List Node), p = l1 ++ x :: (l2 ++ x :: l3) := by
  induction p with
  | nil => simp at h
  | cons a t ih =>
    by_cases ha : a ∈ t
    · obtain ⟨l2, l3, ht⟩ := List.append_of_mem ha
      exact ⟨a, [], l2, l3, by rw [ht]; rfl⟩
    · have hnd : ¬ t.Nodup := fun hnd => h (List.nodup_cons.mpr ⟨ha, hnd⟩)
      obtain ⟨x, l1, l2, l3, ht⟩ := ih hnd
      exact ⟨x, a :: l1, l2, l3, by rw [ht]; rfl⟩

/-- In a non-negatively weighted graph every path is dominated by a
duplicate-free path with the same endpoints. -/
theorem exists_nodup_path {g : Graph W} (hw : NonnegG g) :
    ∀ (n : Nat) (p : List Node) (s e : Node) (c : W), p.length ≤ n →
      IsPathFrom g s e p → pathCost g p = some c →
      ∃ q cq, IsPathFrom g s e q ∧ pathCost g q = some cq ∧ q.Nodup ∧ cq ≤ c := by
  intro n
  induction n with
  | zero =>
    intro p s e c hlen hp hc
    obtain ⟨hhead, _, _⟩ := hp
    cases p with
    | nil => cases hhead
    | cons a t => simp at hlen
  | succ n ih =>
    intro p s e c hlen hp hc
    by_cases hnd : p.Nodup
    · exact ⟨p, c, hp, hc, hnd, le_refl c⟩
    · obtain ⟨x, l1, l2, l3, hsplit⟩ := not_nodup_split hnd
      obtain ⟨hhead, hlast, _⟩ := hp
      rw [hsplit] at hc
      obtain ⟨c1, c2, hc1, hc2, hceq⟩ := pathCost_append_split l1 x (l2 ++ x :: l3) c hc
      obtain ⟨c3, c4, hc3, hc4, hc2eq⟩ := pathCost_append_split (x :: l2) x l3 c2 hc2
      have hjoin : pathCost g (l1 ++ x :: l3) = some (c1 + c4) :=
        pathCost_append_join l1 x l3 c1 c4 hc1 hc4
      have hq : IsPathFrom g s e (l1 ++ x :: l3) := by
        refine ⟨?_, ?_, by rw [hjoin]; rfl⟩
        · rw [head?_append_cons l1 x l3 (l2 ++ x :: l3), ← hsplit]
          exact hhead
        · rw [getLast?_append_cons l1 x l3]
          rw [hsplit, getLast?_append_cons l1 x (l2 ++ x :: l3)] at hlast
          have : (x :: (l2 ++ x :: l3)).getLast? = (x :: l3).getLast? := by
            have h1 : x :: (l2 ++ x :: l3) = (x :: l2) ++ x :: l3 := rfl
            rw [h1, getLast?_append_cons (x :: l2) x l3]
          rw [← this]
          exact hlast
      have hlen2 : (l1 ++ x :: l3).length ≤ n := by
        have h1 : p.length = l1.length + 1 + l2.length + 1 + l3.length := by
          rw [hsplit]; simp; omega
        have h2 : (l1 ++ x :: l3).length = l1.length + 1 + l3.length := by
          simp
          omega
        omega
      obtain ⟨q, cq, hqp, hqc, hqnd, hqle⟩ :=
        ih (l1 ++ x :: l3) s e (c1 + c4) hlen2 hq hjoin
      refine ⟨q, cq, hqp, hqc, hqnd, ?_⟩
      have h30 : 0 ≤ c3 := pathCost_nonneg hw hc3
      have : c1 + c4 ≤ c := by
        rw [hceq, hc2eq]
        have : c4 ≤ c3 + c4 := le_add_of_nonneg_left h30
        exact add_le_add_left this c1
      exact le_trans hqle this

/-! ### Optimality of the search -/

theorem head?_mem {l : List Node} {a : Node} (h : l.head? = some a) : a ∈ l := by
  cases l with
  | nil => cases h
  | cons x t =>
    simp only [List.head?_cons, Option.some.injEq] at h
    rw [← h]
    exact List.mem_cons_self _ _

/-- Coverage invariant: every start-to-end path is dominated by a heap entry
together with a duplicate-free continuation avoiding the visited set. -/
def Covers (g : Graph W) (s e : Node) (heap : List (Entry W)) (visited : List Node) :
    Prop :=
  ∀ P (cP : W), IsPathFrom g s e P → pathCost g P = some cP →
    ∃ ent ∈ heap, ∃ (R : List Node) (cR : W),
      IsPathFrom g ent.node e R ∧ pathCost g R = some cR ∧
      R.Nodup ∧ (∀ x ∈ R, x ∉ visited) ∧ ent.cost + cR ≤ cP

/-- The coverage invariant survives one expansion step of the loop. -/
theorem covers_step {g : Graph W} {s e : Node} (hw : NonnegG g)
    {hd : Entry W} {t : List (Entry W)} {visited : List Node}
    (hcov : Covers g s e (hd :: t) visited)
    (hne : (selectMin hd t).1.node ≠ e) :
    Covers g s e
      (pushesFor g ((selectMin hd t).1.node :: visited) (selectMin hd t).1.cost
          (selectMin hd t).1.node (selectMin hd t).1.path ++ (selectMin hd t).2)
      ((selectMin hd t).1.node :: visited) := by
  intro P cP hP hcP
  obtain ⟨ent, hent, R, cR, hR, hRc, hRnd, hRvis, hle⟩ := hcov P cP hP hcP
  have hcm : (selectMin hd t).1.cost ≤ ent.cost := selectMin_cost_le hd t ent hent
  by_cases hnR : (selectMin hd t).1.node ∈ R
  · -- redirect the witness through the node being expanded
    obtain ⟨R1, R2, hRsplit⟩ := List.append_of_mem hnR
    have hlast2 : ((selectMin hd t).1.node :: R2).getLast? = some e := by
      have := hR.2.1
      rw [hRsplit, getLast?_append_cons] at this
      exact this
    have hsub : ((selectMin hd t).1.node :: R2).Sublist R := by
      rw [hRsplit]
      exact List.sublist_append_right R1 _
    have hnd2 : ((selectMin hd t).1.node :: R2).Nodup := List.Nodup.sublist hsub hRnd
    rw [hRsplit] at hRc
    obtain ⟨c1, c2, hc1, hc2, hceq⟩ := pathCost_append_split R1 _ R2 cR hRc
    have h10 : 0 ≤ c1 := pathCost_nonneg hw hc1
    cases R2 with
    | nil =>
      have : (selectMin hd t).1.node = e := by simpa using hlast2
      exact absurd this hne
    | cons m2 R3 =>
      obtain ⟨w, c3, hew, hc3, hc2eq⟩ := pathCost_cons_cons hc2
      have hm2R : m2 ∈ R := hsub.mem (List.mem_cons.mpr (Or.inr (List.mem_cons_self _ _)))
      have hm2vis : m2 ∉ visited := hRvis m2 hm2R
      have hnm2 : (selectMin hd t).1.node ∉ m2 :: R3 := (List.nodup_cons.mp hnd2).1
      have hm2n : m2 ≠ (selectMin hd t).1.node := by
        intro habs
        exact hnm2 (habs ▸ List.mem_cons_self _ _)
      obtain ⟨adj, hladj, hmadj⟩ := edgeWeight_mem hew
      refine ⟨⟨(selectMin hd t).1.cost + w, m2, (selectMin hd t).1.path ++ [m2]⟩,
        ?_, m2 :: R3, c3, ?_, hc3, ?_, ?_, ?_⟩
      · apply List.mem_append.mpr
        left
        unfold pushesFor
        rw [hladj]
        apply List.mem_map.mpr
        refine ⟨(m2, w), ?_, rfl⟩
        apply List.mem_filter.mpr
        refine ⟨hmadj, ?_⟩
        simp only [Bool.not_eq_eq_eq_not, Bool.not_true, decide_eq_false_iff_not]
        simp [hm2vis, hm2n]
      · refine ⟨rfl, ?_, by rw [hc3]; rfl⟩
        rw [List.getLast?_cons_cons] at hlast2
        exact hlast2
      · exact (List.nodup_cons.mp hnd2).2
      · intro x hx
        simp only [List.mem_cons, not_or]
        constructor
        · intro habs
          exact hnm2 (habs ▸ hx)
        · exact hRvis x (hsub.mem (List.mem_cons.mpr (Or.inr hx)))
      · show (selectMin hd t).1.cost + w + c3 ≤ cP
        have step1 : (selectMin hd t).1.cost + w + c3 ≤ ent.cost + (w + c3) := by
          rw [add_assoc]
          exact add_le_add_right hcm _
        have step2 : ent.cost + (w + c3) ≤ ent.cost + (c1 + (w + c3)) :=
          add_le_add_left (le_add_of_nonneg_left h10) _
        have step3 : ent.cost + (c1 + (w + c3)) = ent.cost + cR := by
          rw [hceq, hc2eq]
        exact le_trans step1 (le_trans step2 (le_trans (le_of_eq step3) hle))
  · -- the old witness survives untouched
    have hheadR : ent.node ∈ R := head?_mem hR.1
    have hne2 : ent ≠ (selectMin hd t).1 := by
      intro habs
      exact hnR (habs ▸ hheadR)
    refine ⟨ent, List.mem_append.mpr (Or.inr (selectMin_rest_mem hent hne2)),
      R, cR, hR, hRc, hRnd, ?_, hle⟩
    intro x hx
    simp only [List.mem_cons, not_or]
    exact ⟨fun habs => hnR (habs ▸ hx), hRvis x hx⟩

/-- Main optimality induction: under the coverage invariant, any result of
the loop has a finite cost bounded by the cost of every start-to-end path. -/
theorem dijkstraAux_opt (g : Graph W) (s e : Node) (hw : NonnegG g) :
    ∀ (fuel : Nat) (heap : List (Entry W)) (visited : List Node)
      (r : WithTop W × List Node),
      Covers g s e heap visited →
      dijkstraAux g e fuel heap visited = some r →
      ∀ P (cP : W), IsPathFrom g s e P → pathCost g P = some cP →
        ∃ c : W, r.1 = (c : WithTop W) ∧ c ≤ cP := by
  intro fuel
  induction fuel with
  | zero =>
    intro heap visited r hcov hr P cP hP hcP
    match heap with
    | [] =>
      obtain ⟨ent, hent, _⟩ := hcov P cP hP hcP
      cases hent
    | hd :: t => cases hr
  | succ fuel ih =>
    intro heap visited r hcov hr P cP hP hcP
    match heap with
    | [] =>
      obtain ⟨ent, hent, _⟩ := hcov P cP hP hcP
      cases hent
    | hd :: t =>
      rw [dijkstraAux] at hr
      by_cases h1 : (selectMin hd t).1.node = e
      · simp only [h1, if_true, Option.some.injEq] at hr
        obtain ⟨ent, hent, R, cR, hR, hRc, hRnd, hRvis, hle⟩ := hcov P cP hP hcP
        have hmin : (selectMin hd t).1.cost ≤ ent.cost := selectMin_cost_le hd t ent hent
        have hcR : 0 ≤ cR := pathCost_nonneg hw hRc
        refine ⟨(selectMin hd t).1.cost, by rw [← hr], ?_⟩
        calc (selectMin hd t).1.cost ≤ ent.cost := hmin
          _ ≤ ent.cost + cR := le_add_of_nonneg_right hcR
          _ ≤ cP := hle
      · simp only [h1, if_false] at hr
        by_cases h2 : (selectMin hd t).1.node ∈ visited
        · simp only [h2, if_true] at hr
          refine ih _ _ _ ?_ hr P cP hP hcP
          intro P2 cP2 hP2 hcP2
          obtain ⟨ent, hent, R, cR, hR, hRc, hRnd, hRvis, hle⟩ := hcov P2 cP2 hP2 hcP2
          have hheadR : ent.node ∈ R := head?_mem hR.1
          have hne2 : ent ≠ (selectMin hd t).1 := by
            intro habs
            exact hRvis ent.node hheadR (habs ▸ h2)
          exact ⟨ent, selectMin_rest_mem hent hne2, R, cR, hR, hRc, hRnd, hRvis, hle⟩
        · simp only [h2, if_false] at hr
          exact ih _ _ _ (covers_step hw hcov h1) hr P cP hP hcP

/-- The seed heap covers every start-to-end path. -/
theorem covers_seed (g : Graph W) (s e : Node) (hw : NonnegG g) :
    Covers g s e [⟨0, s, [s]⟩] [] := by
  intro P cP hP hcP
  obtain ⟨q, cq, hq, hqc, hqnd, hqle⟩ :=
    exists_nodup_path hw P.length P s e cP (le_refl _) hP hcP
  refine ⟨⟨0, s, [s]⟩, List.mem_singleton.mpr rfl, q, cq, hq, hqc, hqnd, ?_, ?_⟩
  · intro x _
    simp
  · rw [zero_add]
    exact hqle

/-- Optimality at the level of `dijkstra`: any finite result is a lower
bound of all path costs, and such a finite result exists whenever some
path exists. -/
theorem dijkstra_opt {g : Graph W} {s e : Node} (hw : NonnegG g)
    {P : List Node} {cP : W} (hP : IsPathFrom g s e P) (hcP : pathCost g P = some cP) :
    ∃ c : W, (dijkstra g s e).1 = (c : WithTop W) ∧ c ≤ cP := by
  exact dijkstraAux_opt g s e hw (fuelFor g) _ _ _ (covers_seed g s e hw)
    (dijkstra_runs g s e) P cP hP hcP

/-! ### Exact cost and simplicity of the returned path -/

/-- Full invariant of a heap entry in a well-formed graph: the path is a
duplicate-free chain from the start to the entry's node whose cost is the
entry's cost, and all its nodes except the last are finalized. -/
def EntryPathC (g : Graph W) (s : Node) (visited : List Node) (x : Entry W) : Prop :=
  x.path.head? = some s ∧ x.path.getLast? = some x.node ∧
    pathCost g x.path = some x.cost ∧ x.path.Nodup ∧
    ∀ y ∈ x.path.dropLast, y ∈ visited

theorem entryPathC_mono {g : Graph W} {s : Node} {visited visited2 : List Node}
    {x : Entry W} (hsub : ∀ y ∈ visited, y ∈ visited2)
    (h : EntryPathC g s visited x) : EntryPathC g s visited2 x :=
  ⟨h.1, h.2.1, h.2.2.1, h.2.2.2.1, fun y hy => hsub y (h.2.2.2.2 y hy)⟩

theorem mem_dropLast_or_last {p : List Node} {n y : Node}
    (hl : p.getLast? = some n) (hy : y ∈ p) : y ∈ p.dropLast ∨ y = n := by
  induction p with
  | nil => cases hy
  | cons a t ih =>
    cases t with
    | nil =>
      simp only [List.getLast?_singleton, Option.some.injEq] at hl
      simp only [List.mem_singleton] at hy
      exact Or.inr (hy.trans hl)
    | cons b t2 =>
      rw [List.getLast?_cons_cons] at hl
      rcases List.mem_cons.mp hy with hy | hy
      · left
        rw [hy]
        simp
      · rcases ih hl hy with h2 | h2
        · left
          have : (a :: b :: t2).dropLast = a :: (b :: t2).dropLast := by simp
          rw [this]
          exact List.mem_cons.mpr (Or.inr h2)
        · exact Or.inr h2

theorem pushesFor_entryPathC {g : Graph W} {s : Node} {visited : List Node}
    (hwf : WFGraph g) {c : W} {n : Node} {p : List Node}
    (hep : EntryPathC g s visited ⟨c, n, p⟩) :
    ∀ x ∈ pushesFor g (n :: visited) c n p, EntryPathC g s (n :: visited) x := by
  intro x hx
  unfold pushesFor at hx
  cases hl : lookupNode g n with
  | none => rw [hl] at hx; cases hx
  | some adj =>
    rw [hl] at hx
    obtain ⟨q, hq, hqx⟩ := List.mem_map.mp hx
    have hq2 : q ∈ adj := List.mem_of_mem_filter hq
    have hqvis : q.1 ∉ n :: visited := by
      have := List.of_mem_filter hq
      simpa using this
    obtain ⟨hhead, hlast, hcost, hnd, hdrop⟩ := hep
    simp only at hhead hlast hcost hnd hdrop
    have hew : edgeWeight g n q.1 = some q.2 := edgeWeight_eq_of_mem hwf hl hq2
    have hqp : q.1 ∉ p := by
      intro habs
      rcases mem_dropLast_or_last hlast habs with h2 | h2
      · exact hqvis (List.mem_cons.mpr (Or.inr (hdrop _ h2)))
      · exact hqvis (List.mem_cons.mpr (Or.inl h2))
    rw [← hqx]
    refine ⟨?_, ?_, ?_, ?_, ?_⟩
    · simp only
      cases p with
      | nil => cases hhead
      | cons a t => simpa using hhead
    · simp [List.getLast?_concat]
    · simp only
      exact pathCost_snoc hcost hlast hew
    · simp only
      rw [List.nodup_append]
      refine ⟨hnd, List.nodup_singleton _, ?_⟩
      intro y hy
      simp only [List.mem_singleton]
      intro habs
      exact hqp (habs ▸ hy)
    · simp only
      rw [List.dropLast_concat]
      intro y hy
      rcases mem_dropLast_or_last hlast hy with h2 | h2
      · exact List.mem_cons.mpr (Or.inr (hdrop _ h2))
      · exact List.mem_cons.mpr (Or.inl h2)

theorem dijkstraAux_exact (g : Graph W) (s e : Node) (hwf : WFGraph g) :
    ∀ (fuel : Nat) (heap : List (Entry W)) (visited : List Node)
      (r : WithTop W × List Node),
      (∀ x ∈ heap, EntryPathC g s visited x) →
      dijkstraAux g e fuel heap visited = some r →
      ∀ c : W, r.1 = (c : WithTop W) →
        r.2.head? = some s ∧ r.2.getLast? = some e ∧
        pathCost g r.2 = some c ∧ r.2.Nodup := by
  intro fuel
  induction fuel with
  | zero =>
    intro heap visited r hinv hr c hc
    match heap with
    | [] =>
      rw [dijkstraAux] at hr
      simp only [Option.some.injEq] at hr
      rw [← hr] at hc
      exact absurd hc (by simp)
    | hd :: t => cases hr
  | succ fuel ih =>
    intro heap visited r hinv hr c hc
    match heap with
    | [] =>
      rw [dijkstraAux] at hr
      simp only [Option.some.injEq] at hr
      rw [← hr] at hc
      exact absurd hc (by simp)
    | hd :: t =>
      rw [dijkstraAux] at hr
      have hmin : EntryPathC g s visited (selectMin hd t).1 := hinv _ (selectMin_mem hd t)
      have hrest : ∀ x ∈ (selectMin hd t).2, EntryPathC g s visited x := by
        intro x hx
        exact hinv _ ((selectMin_perm hd t).mem_iff.mp (List.mem_cons.mpr (Or.inr hx)))
      by_cases h1 : (selectMin hd t).1.node = e
      · simp only [h1, if_true, Option.some.injEq] at hr
        obtain ⟨hhead, hlast, hcost, hnd, _⟩ := hmin
        rw [← hr] at hc ⊢
        simp only at hc ⊢
        have : (selectMin hd t).1.cost = c := by
          exact_mod_cast hc
        exact ⟨hhead, h1 ▸ hlast, this ▸ hcost, hnd⟩
      · simp only [h1, if_false] at hr
        by_cases h2 : (selectMin hd t).1.node ∈ visited
        · simp only [h2, if_true] at hr
          exact ih _ _ _ hrest hr c hc
        · simp only [h2, if_false] at hr
          refine ih _ _ _ ?_ hr c hc
          intro x hx
          rcases List.mem_append.mp hx with hx | hx
          · have hm : EntryPathC g s visited
                ⟨(selectMin hd t).1.cost, (selectMin hd t).1.node,
                  (selectMin hd t).1.path⟩ := hmin
            exact pushesFor_entryPathC hwf hm x hx
          · exact entryPathC_mono (fun y hy => List.mem_cons.mpr (Or.inr hy)) (hrest x hx)

/-- Exactness at the level of `dijkstra`: a finite result is a duplicate-free
start-to-end path whose cost is exactly the returned cost. -/
theorem dijkstra_exact {g : Graph W} {s e : Node} (hwf : WFGraph g)
    {c : W} (hc : (dijkstra g s e).1 = (c : WithTop W)) :
    (dijkstra g s e).2.head? = some s ∧ (dijkstra g s e).2.getLast? = some e ∧
      pathCost g (dijkstra g s e).2 = some c ∧ (dijkstra g s e).2.Nodup := by
  have hseed : ∀ x ∈ [(⟨0, s, [s]⟩ : Entry W)], EntryPathC g s [] x := by
    intro x hx
    simp only [List.mem_singleton] at hx
    subst hx
    exact ⟨rfl, rfl, by rw [pathCost_single], List.nodup_singleton _, by simp⟩
  exact dijkstraAux_exact g s e hwf (fuelFor g) _ _ _ hseed (dijkstra_runs g s e) c hc

/-! ### Edge removal preserves well-formedness and transfers paths -/

theorem lookupNode_removeEdge (g : Graph W) (u v n : Node) :
    lookupNode (removeEdge g u v) n =
      (lookupNode g n).map
        (fun adj => if n = u then adj.filter (fun q => !decide (q.1 = v)) else adj) := by
  induction g with
  | nil => rfl
  | cons p t ih =>
    have hkey : (if p.1 = u then (p.1, p.2.filter (fun q => !decide (q.1 = v))) else p).1
        = p.1 := by
      by_cases hpu : p.1 = u <;> simp [hpu]
    unfold removeEdge at ih ⊢
    rw [List.map_cons]
    unfold lookupNode
    by_cases hpn : p.1 = n
    · subst hpn
      rw [List.find?_cons_of_pos _ (by rw [hkey]; simp),
        List.find?_cons_of_pos _ (by simp)]
      by_cases hpu : p.1 = u <;> simp [hpu]
    · rw [List.find?_cons_of_neg _ (by rw [hkey]; simp [hpn]),
        List.find?_cons_of_neg _ (by simp [hpn])]
      exact ih

theorem removeEdge_keys (g : Graph W) (u v : Node) :
    (removeEdge g u v).map (fun p => p.1) = g.map (fun p => p.1) := by
  unfold removeEdge
  rw [List.map_map]
  apply List.map_congr_left
  intro p _
  by_cases hpu : p.1 = u <;> simp [hpu]

theorem wf_removeEdge {g : Graph W} (hwf : WFGraph g) (u v : Node) :
    WFGraph (removeEdge g u v) := by
  constructor
  · rw [removeEdge_keys]
    exact hwf.1
  · intro p hp
    unfold removeEdge at hp
    obtain ⟨q, hq, hqp⟩ := List.mem_map.mp hp
    have hnd := hwf.2 q hq
    by_cases hqu : q.1 = u
    · rw [← hqp]
      simp only [hqu, if_true]
      have hsub : (q.2.filter (fun r => !decide (r.1 = v))).Sublist q.2 :=
        List.filter_sublist q.2
      exact List.Nodup.sublist (hsub.map _) hnd
    · rw [← hqp]
      simp only [hqu, if_false]
      exact hnd

theorem nonneg_removeEdge {g : Graph W} (hw : NonnegG g) (u v : Node) :
    NonnegG (removeEdge g u v) := by
  intro p hp q hq
  unfold removeEdge at hp
  obtain ⟨p0, hp0, hp0p⟩ := List.mem_map.mp hp
  by_cases hpu : p0.1 = u
  · rw [← hp0p] at hq
    simp only [hpu, if_true] at hq
    exact hw p0 hp0 q (List.mem_of_mem_filter hq)
  · rw [← hp0p] at hq
    simp only [hpu, if_false] at hq
    exact hw p0 hp0 q hq

theorem edgeWeight_removeEdge {g : Graph W} (hwf : WFGraph g) {u v a b : Node} {w : W}
    (h : edgeWeight (removeEdge g u v) a b = some w) : edgeWeight g a b = some w := by
  unfold edgeWeight at h
  rw [lookupNode_removeEdge] at h
  cases hl : lookupNode g a with
  | none => rw [hl] at h; cases h
  | some adj =>
    rw [hl] at h
    simp only [Option.map_some', Option.some_bind] at h
    by_cases hau : a = u
    · simp only [hau, if_true] at h
      cases hf : (adj.filter (fun q => !decide (q.1 = v))).find? (fun p => p.1 == b) with
      | none => rw [hf] at h; cases h
      | some q =>
        rw [hf] at h
        simp at h
        have hqmem : q ∈ adj := List.mem_of_mem_filter (List.mem_of_find?_eq_some hf)
        have hqb : q.1 = b := by simpa using List.find?_some hf
        have hnd := hwf.2 (a, adj) (lookupNode_mem hl)
        have : (b, w) ∈ adj := by
          have : q = (b, w) := by
            obtain ⟨q1, q2⟩ := q
            simp only at hqb h
            rw [hqb, h]
          rwa [this] at hqmem
        exact edgeWeight_eq_of_mem hwf hl this
    · simp only [hau, if_false] at h
      unfold edgeWeight
      rw [hl]
      simpa using h

theorem pathCost_removeEdge {g : Graph W} (hwf : WFGraph g) {u v : Node} :
    ∀ {p : List Node} {c : W}, pathCost (removeEdge g u v) p = some c →
      pathCost g p = some c := by
  intro p
  induction p with
  | nil => intro c h; cases h
  | cons x t ih =>
    intro c h
    cases t with
    | nil => rw [pathCost_single] at h ⊢; exact h
    | cons y t2 =>
      obtain ⟨w, c2, hew, hpc, hc⟩ := pathCost_cons_cons h
      rw [hc]
      exact pathCost_cons_cons_eq (edgeWeight_removeEdge hwf hew) (ih hpc)

theorem wf_removeBoth {g : Graph W} (hwf : WFGraph g) (u v : Node) :
    WFGraph (removeBoth g u v) := wf_removeEdge (wf_removeEdge hwf u v) v u

theorem nonneg_removeBoth {g : Graph W} (hw : NonnegG g) (u v : Node) :
    NonnegG (removeBoth g u v) := nonneg_removeEdge (nonneg_removeEdge hw u v) v u

theorem pathCost_removeBoth {g : Graph W} (hwf : WFGraph g) {u v : Node}
    {p : List Node} {c : W} (h : pathCost (removeBoth g u v) p = some c) :
    pathCost g p = some c :=
  pathCost_removeEdge hwf (pathCost_removeEdge (wf_removeEdge hwf u v) h)

theorem isPathFrom_removeBoth {g : Graph W} (hwf : WFGraph g) {u v s e : Node}
    {p : List Node} (h : IsPathFrom (removeBoth g u v) s e p) : IsPathFrom g s e p := by
  obtain ⟨h1, h2, h3⟩ := h
  obtain ⟨c, hc⟩ := Option.isSome_iff_exists.mp h3
  exact ⟨h1, h2, by rw [pathCost_removeBoth hwf hc]; rfl⟩

/-! ### The edge-removal loop of find_second_shortest_path -/

/-- A finite, nonempty `dijkstra` result is a path with a finite cost. -/
theorem dijkstra_ne_nil {g : Graph W} {s e : Node}
    (h : (dijkstra g s e).2 ≠ []) :
    ∃ c : W, (dijkstra g s e).1 = (c : WithTop W) ∧
      IsPathFrom g s e (dijkstra g s e).2 := by
  rcases dijkstra_shape g s e with hs | h2
  · exact absurd (by rw [hs]) h
  · exact h2

/-- Invariant of the `for` loop of lines 96-115: the best-so-far is either
still the initial "no candidate" value, or the verbatim result of one
edge-removed search whose path differs from the primary path. -/
def SecondInv (g : Graph W) (s e : Node) (sp : List Node)
    (pairs : List (Node × Node)) (best : WithTop W × List Node) : Prop :=
  best = (⊤, []) ∨
    ∃ uv ∈ pairs, best = dijkstra (removeBoth g uv.1 uv.2) s e ∧ best.2 ≠ sp

theorem secondStep_inv {g : Graph W} {s e : Node} {sp : List Node}
    {pairs : List (Node × Node)} {best : WithTop W × List Node} {uv : Node × Node}
    (huv : uv ∈ pairs) (hinv : SecondInv g s e sp pairs best) :
    SecondInv g s e sp pairs (secondStep g s e sp best uv) := by
  unfold secondStep
  by_cases hcond : (dijkstra (removeBoth g uv.1 uv.2) s e).1 < best.1 ∧
      (dijkstra (removeBoth g uv.1 uv.2) s e).2 ≠ sp
  · rw [if_pos hcond]
    exact Or.inr ⟨uv, huv, rfl, hcond.2⟩
  · rw [if_neg hcond]
    exact hinv

theorem foldl_secondStep_inv {g : Graph W} {s e : Node} {sp : List Node}
    {pairs : List (Node × Node)} :
    ∀ (sub : List (Node × Node)) (best : WithTop W × List Node),
      (∀ uv ∈ sub, uv ∈ pairs) → SecondInv g s e sp pairs best →
      SecondInv g s e sp pairs (sub.foldl (secondStep g s e sp) best) := by
  intro sub
  induction sub with
  | nil => intro best _ hinv; exact hinv
  | cons uv rest ih =>
    intro best hsub hinv
    rw [List.foldl_cons]
    exact ih _ (fun x hx => hsub x (List.mem_cons.mpr (Or.inr hx)))
      (secondStep_inv (hsub uv (List.mem_cons_self _ _)) hinv)

/-- Shape of a `findSecondIn` result: unreachable, or the verbatim result of
one symmetric single-edge removal along the primary path, different from the
primary path. -/
theorem findSecondIn_shape (g : Graph W) (s e : Node) :
    findSecondIn g s e = (⊤, []) ∨
      ∃ uv ∈ (dijkstra g s e).2.zip (dijkstra g s e).2.tail,
        findSecondIn g s e = dijkstra (removeBoth g uv.1 uv.2) s e ∧
        (findSecondIn g s e).2 ≠ (dijkstra g s e).2 := by
  by_cases hsp : (dijkstra g s e).2 = []
  · left
    unfold findSecondIn
    rw [if_pos hsp]
  · have h := @foldl_secondStep_inv W _ g s e (dijkstra g s e).2
      ((dijkstra g s e).2.zip (dijkstra g s e).2.tail)
      ((dijkstra g s e).2.zip (dijkstra g s e).2.tail) (⊤, [])
      (fun x hx => hx) (Or.inl rfl)
    unfold findSecondIn
    rw [if_neg hsp]
    exact h

/-- An iteration whose edge removal leaves no route contributes nothing. -/
theorem secondStep_skip {g : Graph W} {s e : Node} {sp : List Node}
    {best : WithTop W × List Node} {uv : Node × Node}
    (h : ∀ p, ¬ IsPathFrom (removeBoth g uv.1 uv.2) s e p) :
    secondStep g s e sp best uv = best := by
  unfold secondStep
  rw [dijkstra_no_path h]
  simp

/-! ### A store model for the mutation claims

Python dicts are heap objects: the module-level `graph` maps node labels to
references to adjacency dicts.  `Store` is the heap (cell index to
adjacency contents), `GraphR` a dict value (node label to cell index).
`find_second_shortest_path`'s per-iteration copy allocates fresh cells
(`copyGraph`), and the two `del` statements write through the copy's
references only (`delEdge`), which is the content of the no-mutation claim:
had the code copied references instead of contents, the theorem would fail.
-/

abbrev StoreF (W : Type) := Nat → Adj W

abbrev GraphR := List (Node × Nat)

/-- Contents of a graph dict: each key paired with the contents of the cell
its reference designates. -/
def graphVal (st : StoreF W) (gr : GraphR) : Graph W :=
  gr.map (fun p => (p.1, st p.2))

def writeCell (st : StoreF W) (i : Nat) (a : Adj W) : StoreF W :=
  fun j => if j = i then a else st j

/-- `graph_copy = {node: neighbors.copy() for node, neighbors in graph.items()}`
(line 101): allocate one fresh cell per node, holding a copy of the current
contents of that node's adjacency cell; returns the new store, the next free
cell and the copy's reference dict. -/
def copyGraph : StoreF W → Nat → GraphR → StoreF W × Nat × GraphR
  | st, nxt, [] => (st, nxt, [])
  | st, nxt, p :: t =>
    let st2 := writeCell st nxt (st p.2)
    let r := copyGraph st2 (nxt + 1) t
    (r.1, r.2.1, (p.1, nxt) :: r.2.2)

/-- `if u in graph_copy and v in graph_copy[u]: del graph_copy[u][v]`
(lines 103-106): write the filtered adjacency through the copy's reference
for `u`, when present. -/
def delEdge (st : StoreF W) (gcr : GraphR) (u v : Node) : StoreF W :=
  match gcr.find? (fun p => p.1 == u) with
  | none => st
  | some p => writeCell st p.2 ((st p.2).filter (fun q => !decide (q.1 = v)))

/-- One iteration of the loop of lines 96-115 acting on the store. -/
def secondStepS (gr : GraphR) (s e : Node) (sp : List Node)
    (acc : (WithTop W × List Node) × StoreF W × Nat) (uv : Node × Node) :
    (WithTop W × List Node) × StoreF W × Nat :=
  let c := copyGraph acc.2.1 acc.2.2 gr
  let st2 := delEdge c.1 c.2.2 uv.1 uv.2
  let st3 := delEdge st2 c.2.2 uv.2 uv.1
  let r := dijkstra (graphVal st3 c.2.2) s e
  (if r.1 < acc.1.1 ∧ r.2 ≠ sp then r else acc.1, st3, c.2.1)

/-- `find_second_shortest_path` acting on the store holding the module graph. -/
def findSecondS (st : StoreF W) (nxt : Nat) (gr : GraphR) (s e : Node) :
    (WithTop W × List Node) × StoreF W × Nat :=
  if (dijkstra (graphVal st gr) s e).2 = [] then ((⊤, []), st, nxt)
  else ((dijkstra (graphVal st gr) s e).2.zip
      (dijkstra (graphVal st gr) s e).2.tail).foldl
    (secondStepS gr s e (dijkstra (graphVal st gr) s e).2) ((⊤, []), st, nxt)

/-- `dijkstra` acting on the store: its body contains no write to any dict,
so it returns the store unchanged by construction. -/
def dijkstraS (st : StoreF W) (nxt : Nat) (gr : GraphR) (s e : Node) :
    (WithTop W × List Node) × StoreF W × Nat :=
  (dijkstra (graphVal st gr) s e, st, nxt)

theorem graphVal_congr {st1 st2 : StoreF W} {gr : GraphR}
    (h : ∀ p ∈ gr, st1 p.2 = st2 p.2) : graphVal st1 gr = graphVal st2 gr := by
  unfold graphVal
  apply List.map_congr_left
  intro p hp
  rw [h p hp]

theorem copyGraph_cell_old :
    ∀ (l : GraphR) (st : StoreF W) (nxt i : Nat), i < nxt →
      (copyGraph st nxt l).1 i = st i := by
  intro l
  induction l with
  | nil => intro st nxt i h; rfl
  | cons p t ih =>
    intro st nxt i h
    show (copyGraph (writeCell st nxt (st p.2)) (nxt + 1) t).1 i = st i
    rw [ih _ _ _ (by omega)]
    unfold writeCell
    rw [if_neg (by omega)]

theorem copyGraph_next :
    ∀ (l : GraphR) (st : StoreF W) (nxt : Nat),
      (copyGraph st nxt l).2.1 = nxt + l.length := by
  intro l
  induction l with
  | nil => intro st nxt; simp [copyGraph]
  | cons p t ih =>
    intro st nxt
    show (copyGraph (writeCell st nxt (st p.2)) (nxt + 1) t).2.1 = _
    rw [ih]
    simp
    omega

theorem copyGraph_refs :
    ∀ (l : GraphR) (st : StoreF W) (nxt : Nat),
      ∀ q ∈ (copyGraph st nxt l).2.2, nxt ≤ q.2 ∧ q.2 < nxt + l.length := by
  intro l
  induction l with
  | nil => intro st nxt q hq; cases hq
  | cons p t ih =>
    intro st nxt q hq
    rcases List.mem_cons.mp hq with hq | hq
    · rw [hq]
      simp
    · have := ih (writeCell st nxt (st p.2)) (nxt + 1) q hq
      simp only [List.length_cons]
      omega

theorem copyGraph_keys :
    ∀ (l : GraphR) (st : StoreF W) (nxt : Nat),
      (copyGraph st nxt l).2.2.map (fun p => p.1) = l.map (fun p => p.1) := by
  intro l
  induction l with
  | nil => intro st nxt; rfl
  | cons p t ih =>
    intro st nxt
    show (p.1, nxt).1 :: (copyGraph _ (nxt + 1) t).2.2.map (fun p => p.1) = _
    rw [ih]
    rfl

theorem copyGraph_refs_nodup :
    ∀ (l : GraphR) (st : StoreF W) (nxt : Nat),
      ((copyGraph st nxt l).2.2.map (fun p => p.2)).Nodup := by
  intro l
  induction l with
  | nil => intro st nxt; exact List.nodup_nil
  | cons p t ih =>
    intro st nxt
    show (nxt :: (copyGraph _ (nxt + 1) t).2.2.map (fun p => p.2)).Nodup
    rw [List.nodup_cons]
    refine ⟨?_, ih _ _⟩
    intro habs
    obtain ⟨q, hq, hq2⟩ := List.mem_map.mp habs
    have := copyGraph_refs t (writeCell st nxt (st p.2)) (nxt + 1) q hq
    omega

theorem copyGraph_val :
    ∀ (l : GraphR) (st : StoreF W) (nxt : Nat), (∀ p ∈ l, p.2 < nxt) →
      graphVal (copyGraph st nxt l).1 (copyGraph st nxt l).2.2 = graphVal st l := by
  intro l
  induction l with
  | nil => intro st nxt _; rfl
  | cons p t ih =>
    intro st nxt hb
    show graphVal (copyGraph (writeCell st nxt (st p.2)) (nxt + 1) t).1
        ((p.1, nxt) :: (copyGraph (writeCell st nxt (st p.2)) (nxt + 1) t).2.2)
      = (p.1, st p.2) :: graphVal st t
    unfold graphVal
    rw [List.map_cons]
    congr 1
    · simp only
      congr 1
      rw [copyGraph_cell_old t _ (nxt + 1) nxt (by omega)]
      unfold writeCell
      rw [if_pos rfl]
    · have h1 := ih (writeCell st nxt (st p.2)) (nxt + 1)
        (fun q hq => by have := hb q (List.mem_cons.mpr (Or.inr hq)); omega)
      unfold graphVal at h1
      rw [h1]
      apply List.map_congr_left
      intro q hq
      have hqb := hb q (List.mem_cons.mpr (Or.inr hq))
      unfold writeCell
      rw [if_neg (by omega)]

theorem delEdge_cell_outside {gcr : GraphR} {lo : Nat}
    (hb : ∀ q ∈ gcr, lo ≤ q.2) (st : StoreF W) (u v : Node) :
    ∀ i < lo, delEdge st gcr u v i = st i := by
  intro i hi
  unfold delEdge
  cases hf : gcr.find? (fun p => p.1 == u) with
  | none => rfl
  | some p =>
    have hp := hb p (List.mem_of_find?_eq_some hf)
    show (if i = p.2 then (st p.2).filter (fun q => !decide (q.1 = v)) else st i) = st i
    rw [if_neg (by omega)]

theorem delEdge_val {gcr : GraphR} (st : StoreF W) (u v : Node)
    (hk : (gcr.map (fun p => p.1)).Nodup) (hr : (gcr.map (fun p => p.2)).Nodup) :
    graphVal (delEdge st gcr u v) gcr = removeEdge (graphVal st gcr) u v := by
  unfold delEdge removeEdge graphVal
  rw [List.map_map]
  cases hf : gcr.find? (fun p => p.1 == u) with
  | none =>
    have hku : ∀ p ∈ gcr, p.1 ≠ u := by
      intro p hp habs
      have h2 := List.find?_eq_none.mp hf p hp
      simp [habs] at h2
    apply List.map_congr_left
    intro q hq
    simp [hku q hq]
  | some p0 =>
    have hp0mem : p0 ∈ gcr := List.mem_of_find?_eq_some hf
    have hp0u : p0.1 = u := by simpa using List.find?_some hf
    apply List.map_congr_left
    intro q hq
    by_cases hqp : q.2 = p0.2
    · have hqq : q = p0 :=
        List.inj_on_of_nodup_map hr hq hp0mem hqp
      subst hqq
      simp [writeCell, hp0u]
    · have hqu : q.1 ≠ u := by
        intro habs
        have hq2 : q = p0 :=
          List.inj_on_of_nodup_map hk hq hp0mem (by rw [habs, hp0u])
        exact hqp (by rw [hq2])
      simp [writeCell, hqp, hqu]

end GPF

namespace GPF

variable {W : Type} [LinearOrderedAddCommMonoid W]

/-- One store iteration computes exactly the pure iteration on the graph's
value and leaves the original graph's cells untouched. -/
theorem secondStepS_step {gr : GraphR} (s e : Node) (sp : List Node)
    (hnd : (gr.map (fun p => p.1)).Nodup)
    (acc : (WithTop W × List Node) × StoreF W × Nat) (uv : Node × Node)
    (hrefs : ∀ p ∈ gr, p.2 < acc.2.2) (st0 : StoreF W)
    (hval : graphVal acc.2.1 gr = graphVal st0 gr) :
    (secondStepS gr s e sp acc uv).1 = secondStep (graphVal st0 gr) s e sp acc.1 uv ∧
    graphVal (secondStepS gr s e sp acc uv).2.1 gr = graphVal st0 gr ∧
    (∀ p ∈ gr, p.2 < (secondStepS gr s e sp acc uv).2.2) := by
  have hkeys : ((copyGraph acc.2.1 acc.2.2 gr).2.2.map (fun p => p.1)).Nodup := by
    rw [copyGraph_keys]
    exact hnd
  have hrefsnd := copyGraph_refs_nodup gr acc.2.1 acc.2.2
  have hlo : ∀ q ∈ (copyGraph acc.2.1 acc.2.2 gr).2.2, acc.2.2 ≤ q.2 :=
    fun q hq => (copyGraph_refs gr acc.2.1 acc.2.2 q hq).1
  have hv1 : graphVal (copyGraph acc.2.1 acc.2.2 gr).1 (copyGraph acc.2.1 acc.2.2 gr).2.2
      = graphVal st0 gr := by
    rw [copyGraph_val gr acc.2.1 acc.2.2 hrefs, hval]
  have hv2 : graphVal (delEdge (copyGraph acc.2.1 acc.2.2 gr).1
        (copyGraph acc.2.1 acc.2.2 gr).2.2 uv.1 uv.2)
        (copyGraph acc.2.1 acc.2.2 gr).2.2
      = removeEdge (graphVal st0 gr) uv.1 uv.2 := by
    rw [delEdge_val _ uv.1 uv.2 hkeys hrefsnd, hv1]
  have hv3 : graphVal (delEdge (delEdge (copyGraph acc.2.1 acc.2.2 gr).1
          (copyGraph acc.2.1 acc.2.2 gr).2.2 uv.1 uv.2)
        (copyGraph acc.2.1 acc.2.2 gr).2.2 uv.2 uv.1)
        (copyGraph acc.2.1 acc.2.2 gr).2.2
      = removeBoth (graphVal st0 gr) uv.1 uv.2 := by
    rw [delEdge_val _ uv.2 uv.1 hkeys hrefsnd, hv2]
    rfl
  have hout : ∀ p ∈ gr,
      (delEdge (delEdge (copyGraph acc.2.1 acc.2.2 gr).1
          (copyGraph acc.2.1 acc.2.2 gr).2.2 uv.1 uv.2)
        (copyGraph acc.2.1 acc.2.2 gr).2.2 uv.2 uv.1) p.2 = acc.2.1 p.2 := by
    intro p hp
    have hb := hrefs p hp
    rw [delEdge_cell_outside hlo _ uv.2 uv.1 p.2 hb,
      delEdge_cell_outside hlo _ uv.1 uv.2 p.2 hb,
      copyGraph_cell_old gr acc.2.1 acc.2.2 p.2 hb]
  refine ⟨?_, ?_, ?_⟩
  · show (if (dijkstra (graphVal _ _) s e).1 < acc.1.1 ∧
        (dijkstra (graphVal _ _) s e).2 ≠ sp
      then dijkstra (graphVal _ _) s e else acc.1) = _
    rw [hv3]
    rfl
  · show graphVal (delEdge (delEdge _ _ uv.1 uv.2) _ uv.2 uv.1) gr = graphVal st0 gr
    rw [graphVal_congr hout]
    exact hval
  · intro p hp
    show p.2 < (copyGraph acc.2.1 acc.2.2 gr).2.1
    rw [copyGraph_next]
    have := hrefs p hp
    omega

theorem foldS {gr : GraphR} (s e : Node) (sp : List Node)
    (hnd : (gr.map (fun p => p.1)).Nodup) (st0 : StoreF W) :
    ∀ (pairs : List (Node × Node)) (acc : (WithTop W × List Node) × StoreF W × Nat),
      (∀ p ∈ gr, p.2 < acc.2.2) → graphVal acc.2.1 gr = graphVal st0 gr →
      ((pairs.foldl (secondStepS gr s e sp) acc).1
          = pairs.foldl (secondStep (graphVal st0 gr) s e sp) acc.1 ∧
        graphVal (pairs.foldl (secondStepS gr s e sp) acc).2.1 gr = graphVal st0 gr ∧
        (∀ p ∈ gr, p.2 < (pairs.foldl (secondStepS gr s e sp) acc).2.2)) := by
  intro pairs
  induction pairs with
  | nil =>
    intro acc h1 h2
    exact ⟨rfl, h2, h1⟩
  | cons uv rest ih =>
    intro acc h1 h2
    obtain ⟨hs1, hs2, hs3⟩ := secondStepS_step s e sp hnd acc uv h1 st0 h2
    rw [List.foldl_cons, List.foldl_cons]
    have := ih (secondStepS gr s e sp acc uv) hs3 hs2
    rw [hs1] at this
    exact this

/-- Full specification of the store-level second-path search. -/
theorem findSecondS_spec (st : StoreF W) (nxt : Nat) (gr : GraphR) (s e : Node)
    (hrefs : ∀ p ∈ gr, p.2 < nxt) (hnd : (gr.map (fun p => p.1)).Nodup) :
    graphVal (findSecondS st nxt gr s e).2.1 gr = graphVal st gr ∧
    (findSecondS st nxt gr s e).1 = findSecondIn (graphVal st gr) s e ∧
    (∀ p ∈ gr, p.2 < (findSecondS st nxt gr s e).2.2) := by
  unfold findSecondS findSecondIn
  by_cases hsp : (dijkstra (graphVal st gr) s e).2 = []
  · rw [if_pos hsp, if_pos hsp]
    exact ⟨rfl, rfl, hrefs⟩
  · rw [if_neg hsp, if_neg hsp]
    have h := foldS s e (dijkstra (graphVal st gr) s e).2 hnd st
      ((dijkstra (graphVal st gr) s e).2.zip (dijkstra (graphVal st gr) s e).2.tail)
      ((⊤, []), st, nxt) hrefs rfl
    exact ⟨h.2.1, h.1, h.2.2⟩

end GPF

namespace GPF

variable {W : Type} [LinearOrderedAddCommMonoid W]

/-! ### Claim theorems -/

/-- C1: for every well-formed graph with non-negative edge weights and every
pair (start, end) such that at least one path from start to end exists,
`dijkstra` returns a finite cost that is the minimum of the path-cost sums
over all start-to-end paths, together with a path achieving that cost. -/
theorem claim_C1 (g : Graph W) (s e : Node) (hw : NonnegG g) (hwf : WFGraph g)
    (P : List Node) (hP : IsPathFrom g s e P) :
    ∃ (c : W) (q : List Node), dijkstra g s e = ((c : WithTop W), q) ∧
      IsPathFrom g s e q ∧ pathCost g q = some c ∧
      ∀ (P2 : List Node) (c2 : W), IsPathFrom g s e P2 → pathCost g P2 = some c2 →
        c ≤ c2 := by
  obtain ⟨cP, hcP⟩ := Option.isSome_iff_exists.mp hP.2.2
  obtain ⟨c, hc1, _⟩ := dijkstra_opt hw hP hcP
  have hex := dijkstra_exact hwf hc1
  refine ⟨c, (dijkstra g s e).2, by rw [← hc1], ⟨hex.1, hex.2.1, by rw [hex.2.2.1]; rfl⟩,
    hex.2.2.1, ?_⟩
  intro P2 c2 h1 h2
  obtain ⟨c', hc', hle'⟩ := dijkstra_opt hw h1 h2
  rw [hc1] at hc'
  have hcc : c = c' := by exact_mod_cast hc'
  rw [hcc]
  exact hle'

/-- Witness for C1 on the sample graph with the A→G query. -/
theorem claim_C1_witness :
    NonnegG sampleGraph ∧ WFGraph sampleGraph ∧
    IsPathFrom sampleGraph "A" "G" ["A", "C", "D", "G"] ∧
    ∃ (c : ℤ) (q : List Node), dijkstra sampleGraph "A" "G" = ((c : WithTop ℤ), q) ∧
      IsPathFrom sampleGraph "A" "G" q ∧ pathCost sampleGraph q = some c ∧
      ∀ (P2 : List Node) (c2 : ℤ), IsPathFrom sampleGraph "A" "G" P2 →
        pathCost sampleGraph P2 = some c2 → c ≤ c2 :=
  ⟨by decide, by decide, by decide,
   claim_C1 sampleGraph "A" "G" (by decide) (by decide) ["A", "C", "D", "G"] (by decide)⟩

/-- C3 as stated is false: on the sample graph the A→G search returns cost 5
(the cost of the path A,B,C,D,G), not cost 6. -/
theorem claim_C3_counterexample :
    dijkstra sampleGraph "A" "G" ≠ (((6 : ℤ) : WithTop ℤ), ["A", "B", "C", "D", "G"]) ∧
    (dijkstra sampleGraph "A" "G").1 ≠ ((6 : ℤ) : WithTop ℤ) := by
  constructor <;> decide

/-- C3 (amended): on the sample graph, `dijkstra graph A G` returns cost 5
and path [A, B, C, D, G]. -/
theorem claim_C3 :
    dijkstra sampleGraph "A" "G" = (((5 : ℤ) : WithTop ℤ), ["A", "B", "C", "D", "G"]) := by
  decide

/-- C4 as stated is false: it quantifies over every (start, end) pair, but for
start = end = Z, a node absent from the sample graph, the search returns
(0, [Z]) rather than the unreachable result. -/
theorem claim_C4_counterexample :
    lookupNode sampleGraph "Z" = none ∧
    (∀ pr ∈ sampleGraph, pr.1 ≠ "Z" ∧ ∀ q ∈ pr.2, q.1 ≠ "Z") ∧
    dijkstra sampleGraph "Z" "Z" = (((0 : ℤ) : WithTop ℤ), ["Z"]) ∧
    dijkstra sampleGraph "Z" "Z" ≠ ((⊤ : WithTop ℤ), []) := by
  refine ⟨by decide, by decide, by decide, by decide⟩

/-- C4 (amended): provided start ≠ end, a start node with no entry in the
graph yields the unreachable result, and likewise an end node that occurs
neither as a key nor as a neighbour anywhere in the graph. -/
theorem claim_C4 (g : Graph W) (s e : Node) :
    (lookupNode g s = none → s ≠ e → dijkstra g s e = (⊤, [])) ∧
    ((∀ pr ∈ g, pr.1 ≠ e ∧ ∀ q ∈ pr.2, q.1 ≠ e) → s ≠ e → dijkstra g s e = (⊤, [])) := by
  constructor
  · intro hl hne
    exact dijkstra_no_path (no_path_start_absent hl hne)
  · intro habs hne
    exact dijkstra_no_path (no_path_end_absent (fun pr hpr q hq => (habs pr hpr).2 q hq) hne)

/-- Witness for C4 (amended) on the sample graph with the absent node Z. -/
theorem claim_C4_witness :
    lookupNode sampleGraph "Z" = none ∧ ("Z" : Node) ≠ "A" ∧
    dijkstra sampleGraph "Z" "A" = ((⊤ : WithTop ℤ), []) ∧
    (∀ pr ∈ sampleGraph, pr.1 ≠ "Z" ∧ ∀ q ∈ pr.2, q.1 ≠ "Z") ∧ ("A" : Node) ≠ "Z" ∧
    dijkstra sampleGraph "A" "Z" = ((⊤ : WithTop ℤ), []) :=
  ⟨by decide, by decide, (claim_C4 sampleGraph "Z" "A").1 (by decide) (by decide),
   by decide, by decide, (claim_C4 sampleGraph "A" "Z").2 (by decide) (by decide)⟩

/-- C6: for every graph and every pair (start, end) with no path from start
to end, `dijkstra` returns the unreachable result: infinite cost together
with the empty path. -/
theorem claim_C6 (g : Graph W) (s e : Node) (h : ∀ p, ¬ IsPathFrom g s e p) :
    dijkstra g s e = (⊤, []) :=
  dijkstra_no_path h

/-- Witness for C6: Z is disconnected from A in the sample graph. -/
theorem claim_C6_witness : dijkstra sampleGraph "Z" "A" = ((⊤ : WithTop ℤ), []) :=
  claim_C6 sampleGraph "Z" "A" (no_path_start_absent (by decide) (by decide))

/-- C7: for every graph and every node identifier s (also one with no entry
in the graph), `dijkstra g s s` returns cost 0 and path [s], because the
seed entry is extracted first and equals the end node. -/
theorem claim_C7 (g : Graph W) (s : Node) :
    dijkstra g s s = (((0 : W) : WithTop W), [s]) :=
  dijkstra_self_eval g s

/-- C9: `dijkstra` terminates: the loop, run with the a-priori fuel bound
`fuelFor` (one plus the total size of the graph), always reaches a result
rather than exhausting its fuel, and `dijkstra` returns that result. -/
theorem claim_C9 (g : Graph W) (s e : Node) :
    ∃ r, dijkstraAux g e (fuelFor g) [⟨0, s, [s]⟩] [] = some r ∧ dijkstra g s e = r :=
  ⟨dijkstra g s e, dijkstra_runs g s e, rfl⟩

/-- C10: every finite-cost result of `dijkstra` on a well-formed graph is a
simple path: it begins with start, ends with end, repeats no node, and its
chain of edges exists in the graph with weights summing to the cost. -/
theorem claim_C10 (g : Graph W) (s e : Node) (hwf : WFGraph g) (c : W)
    (hc : (dijkstra g s e).1 = (c : WithTop W)) :
    (dijkstra g s e).2.head? = some s ∧ (dijkstra g s e).2.getLast? = some e ∧
    (dijkstra g s e).2.Nodup ∧ pathCost g (dijkstra g s e).2 = some c := by
  obtain ⟨h1, h2, h3, h4⟩ := dijkstra_exact hwf hc
  exact ⟨h1, h2, h4, h3⟩

/-- Witness for C10 on the sample graph with the A→G query. -/
theorem claim_C10_witness :
    WFGraph sampleGraph ∧ (dijkstra sampleGraph "A" "G").1 = ((5 : ℤ) : WithTop ℤ) ∧
    ((dijkstra sampleGraph "A" "G").2.head? = some "A" ∧
     (dijkstra sampleGraph "A" "G").2.getLast? = some "G" ∧
     (dijkstra sampleGraph "A" "G").2.Nodup ∧
     pathCost sampleGraph (dijkstra sampleGraph "A" "G").2 = some 5) :=
  ⟨by decide, by decide, claim_C10 sampleGraph "A" "G" (by decide) 5 (by decide)⟩

/-- C5: if the primary search is unreachable (empty path) the second-path
search returns the unreachable result immediately; and an iteration of the
per-edge loop whose edge removal disconnects start from end leaves the
best-so-far untouched, because its infinite candidate cost is never
strictly below any best-so-far cost. -/
theorem claim_C5 :
    (∀ s e : Node, (dijkstra sampleGraph s e).2 = [] →
      find_second_shortest_path s e = (⊤, [])) ∧
    (∀ (s e : Node) (sp : List Node) (best : WithTop ℤ × List Node) (uv : Node × Node),
      (∀ p, ¬ IsPathFrom (removeBoth sampleGraph uv.1 uv.2) s e p) →
      secondStep sampleGraph s e sp best uv = best) := by
  constructor
  · intro s e h
    show findSecondIn sampleGraph s e = (⊤, [])
    unfold findSecondIn
    rw [if_pos h]
  · intro s e sp best uv h
    exact secondStep_skip h

/-- Witness for C5: the Z→A query is unreachable, and a disconnected
iteration keeps the previous best candidate. -/
theorem claim_C5_witness :
    (dijkstra sampleGraph "Z" "A").2 = [] ∧
    find_second_shortest_path "Z" "A" = (⊤, []) ∧
    secondStep sampleGraph "Z" "A" ["X"] (((3 : ℤ) : WithTop ℤ), ["X"]) ("A", "B")
      = (((3 : ℤ) : WithTop ℤ), ["X"]) :=
  ⟨by decide, claim_C5.1 "Z" "A" (by decide),
   claim_C5.2 "Z" "A" ["X"] (((3 : ℤ) : WithTop ℤ), ["X"]) ("A", "B")
     (no_path_start_absent (by decide) (by decide))⟩

/-- C2: a non-empty result of `find_second_shortest_path` differs from the
primary shortest path, costs at least the shortest cost, and is the verbatim
minimum-cost result of `dijkstra` on the graph obtained by symmetrically
deleting one consecutive edge of the primary shortest path. -/
theorem claim_C2 (s e : Node) (hne : (find_second_shortest_path s e).2 ≠ []) :
    (find_second_shortest_path s e).2 ≠ (dijkstra sampleGraph s e).2 ∧
    (dijkstra sampleGraph s e).1 ≤ (find_second_shortest_path s e).1 ∧
    ∃ uv ∈ (dijkstra sampleGraph s e).2.zip (dijkstra sampleGraph s e).2.tail,
      find_second_shortest_path s e = dijkstra (removeBoth sampleGraph uv.1 uv.2) s e ∧
      ∃ c : ℤ, (find_second_shortest_path s e).1 = (c : WithTop ℤ) ∧
        IsPathFrom (removeBoth sampleGraph uv.1 uv.2) s e
          (find_second_shortest_path s e).2 ∧
        pathCost (removeBoth sampleGraph uv.1 uv.2)
          (find_second_shortest_path s e).2 = some c ∧
        ∀ (P : List Node) (cP : ℤ),
          IsPathFrom (removeBoth sampleGraph uv.1 uv.2) s e P →
          pathCost (removeBoth sampleGraph uv.1 uv.2) P = some cP → c ≤ cP := by
  have hwf : WFGraph sampleGraph := by decide
  have hnn : NonnegG sampleGraph := by decide
  rcases findSecondIn_shape sampleGraph s e with hsh | ⟨uv, huv, heq, hdiff⟩
  · exfalso
    apply hne
    show (findSecondIn sampleGraph s e).2 = []
    rw [hsh]
  · have hfse : find_second_shortest_path s e =
        dijkstra (removeBoth sampleGraph uv.1 uv.2) s e := heq
    have hne2 : (dijkstra (removeBoth sampleGraph uv.1 uv.2) s e).2 ≠ [] := by
      rw [← hfse]
      exact hne
    obtain ⟨c, hc, hpath⟩ := dijkstra_ne_nil hne2
    have hwfr : WFGraph (removeBoth sampleGraph uv.1 uv.2) := wf_removeBoth hwf uv.1 uv.2
    have hnnr : NonnegG (removeBoth sampleGraph uv.1 uv.2) :=
      nonneg_removeBoth hnn uv.1 uv.2
    have hex := dijkstra_exact hwfr hc
    have hPg : IsPathFrom sampleGraph s e
        (dijkstra (removeBoth sampleGraph uv.1 uv.2) s e).2 :=
      isPathFrom_removeBoth hwf hpath
    have hcg : pathCost sampleGraph
        (dijkstra (removeBoth sampleGraph uv.1 uv.2) s e).2 = some c :=
      pathCost_removeBoth hwf hex.2.2.1
    obtain ⟨c0, hc0, hc0le⟩ := dijkstra_opt hnn hPg hcg
    have hle : (dijkstra sampleGraph s e).1 ≤ (find_second_shortest_path s e).1 := by
      rw [hc0, hfse, hc]
      exact_mod_cast hc0le
    refine ⟨hdiff, hle, uv, huv, hfse, c, ?_, ?_, ?_, ?_⟩
    · rw [hfse]
      exact hc
    · rw [hfse]
      exact hpath
    · rw [hfse]
      exact hex.2.2.1
    · intro P cP hP hcP
      obtain ⟨c', hc', hcle'⟩ := dijkstra_opt hnnr hP hcP
      rw [hc] at hc'
      have hcc : c = c' := by exact_mod_cast hc'
      rw [hcc]
      exact hcle'

/-- Witness for C2 with the A→G query, whose second path is non-empty. -/
theorem claim_C2_witness :
    (find_second_shortest_path "A" "G").2 ≠ [] ∧
    ((find_second_shortest_path "A" "G").2 ≠ (dijkstra sampleGraph "A" "G").2 ∧
     (dijkstra sampleGraph "A" "G").1 ≤ (find_second_shortest_path "A" "G").1 ∧
     ∃ uv ∈ (dijkstra sampleGraph "A" "G").2.zip (dijkstra sampleGraph "A" "G").2.tail,
       find_second_shortest_path "A" "G" =
         dijkstra (removeBoth sampleGraph uv.1 uv.2) "A" "G" ∧
       ∃ c : ℤ, (find_second_shortest_path "A" "G").1 = (c : WithTop ℤ) ∧
         IsPathFrom (removeBoth sampleGraph uv.1 uv.2) "A" "G"
           (find_second_shortest_path "A" "G").2 ∧
         pathCost (removeBoth sampleGraph uv.1 uv.2)
           (find_second_shortest_path "A" "G").2 = some c ∧
         ∀ (P : List Node) (cP : ℤ),
           IsPathFrom (removeBoth sampleGraph uv.1 uv.2) "A" "G" P →
           pathCost (removeBoth sampleGraph uv.1 uv.2) P = some cP → c ≤ cP) :=
  ⟨by decide, claim_C2 "A" "G" (by decide)⟩

/-- C8: with dicts modelled as store cells behind references, `dijkstra`
returns the store unchanged (its body performs no write), and
`find_second_shortest_path` leaves every adjacency cell of the input graph
with its original contents — the `del` statements write only through the
per-iteration copy's fresh references.  Consequently its observable result
is a pure function of the graph's value, and an immediately repeated call
returns the identical result. -/
theorem claim_C8 (st : StoreF W) (nxt : Nat) (gr : GraphR) (s e : Node)
    (hrefs : ∀ p ∈ gr, p.2 < nxt) (hnd : (gr.map (fun p => p.1)).Nodup) :
    (dijkstraS st nxt gr s e).2.1 = st ∧
    graphVal (findSecondS st nxt gr s e).2.1 gr = graphVal st gr ∧
    (findSecondS st nxt gr s e).1 = findSecondIn (graphVal st gr) s e ∧
    (findSecondS (findSecondS st nxt gr s e).2.1 (findSecondS st nxt gr s e).2.2
        gr s e).1 = (findSecondS st nxt gr s e).1 := by
  obtain ⟨h1, h2, h3⟩ := findSecondS_spec st nxt gr s e hrefs hnd
  refine ⟨rfl, h1, h2, ?_⟩
  obtain ⟨h1b, h2b, h3b⟩ := findSecondS_spec (findSecondS st nxt gr s e).2.1
    (findSecondS st nxt gr s e).2.2 gr s e h3 hnd
  rw [h2b, h1, h2]

/-- A small store and reference dict for the witness of the store claim. -/
def sampleStore : StoreF ℤ := fun i =>
  if i = 0 then [("B", 1)] else if i = 1 then [("A", 1)] else []

def sampleRefs : GraphR := [("A", 0), ("B", 1)]

/-- Witness for C8 on a concrete two-node store. -/
theorem claim_C8_witness :
    (∀ p ∈ sampleRefs, p.2 < 2) ∧ (sampleRefs.map (fun p => p.1)).Nodup ∧
    ((dijkstraS sampleStore 2 sampleRefs "A" "B").2.1 = sampleStore ∧
     graphVal (findSecondS sampleStore 2 sampleRefs "A" "B").2.1 sampleRefs
       = graphVal sampleStore sampleRefs ∧
     (findSecondS sampleStore 2 sampleRefs "A" "B").1
       = findSecondIn (graphVal sampleStore sampleRefs) "A" "B" ∧
     (findSecondS (findSecondS sampleStore 2 sampleRefs "A" "B").2.1
         (findSecondS sampleStore 2 sampleRefs "A" "B").2.2 sampleRefs "A" "B").1
       = (findSecondS sampleStore 2 sampleRefs "A" "B").1) :=
  ⟨by decide, by decide, claim_C8 sampleStore 2 sampleRefs "A" "B" (by decide) (by decide)⟩

end GPF
